import Mathlib

/-!
Verification of the periodic-image normalization pipeline of `lynx`
(src/lynx/generate.py).

The Python functions `load_morphology_xml`, `zero_out_images`,
`get_bond_dict`, `check_bonds`, `move_bonded_atoms`,
`check_wrapped_positions`, `write_morphology_xml` and `fix_images` are
shallowly embedded below, keeping their names.  Conventions of the
embedding:

* Machine floats are modelled by `ℚ`.  A whitespace-delimited token of
  the morphology file is modelled by `Tok`: `Tok.num q` is a token whose
  text is a numeral denoting the rational `q` (Python `float()` accepts
  it and `str()` re-renders it; numeric tokens are compared by value, so
  formatting differences such as `"3"` versus `"3.0"` are not modelled),
  while `Tok.raw s` is a non-numeric token (`float()`/`int()` raise on
  it).  `int()` additionally requires the value to be integral.
* Fallible Python operations (`KeyError`, `ValueError`, `IndexError`)
  are modelled in `Except Err`.  Unbounded recursion
  (`move_bonded_atoms`) takes an explicit fuel argument; running out of
  fuel yields the distinguished error `Err.fuel`, which stands for a
  computation the source program never finishes.
* Python `dict` keys met in this program are either `int`s or `str`
  tokens; they are modelled by `PyKey`, whose two constructors never
  compare equal — exactly as `0 == '0'` is `False` in Python.
-/

set_option allowUnsafeReducibility true
-- Batteries seals rational arithmetic behind `irreducible`; the
-- concrete runs of the embedded functions below are checked by `decide`,
-- which needs these definitions to unfold.
attribute [semireducible] Rat.ofScientific Rat.mul Rat.inv Rat.add Rat.sub

/-- Decidable equality for `Except`, so that runs of the embedded
functions can be checked by `decide`. -/
instance exceptDecEq {ε α : Type} [DecidableEq ε] [DecidableEq α] :
    DecidableEq (Except ε α) := fun x y =>
  match x, y with
  | .ok a, .ok b =>
    match decEq a b with
    | isTrue h => isTrue (h ▸ rfl)
    | isFalse h => isFalse (fun hc => h (Except.ok.inj hc))
  | .ok _, .error _ => isFalse (fun hc => Except.noConfusion hc)
  | .error _, .ok _ => isFalse (fun hc => Except.noConfusion hc)
  | .error e, .error f =>
    match decEq e f with
    | isTrue h => isTrue (h ▸ rfl)
    | isFalse h => isFalse (fun hc => h (Except.error.inj hc))

/-- Model of one whitespace-delimited token of a morphology file.  A
`num q` token is numeral text denoting the rational `q`; a `raw s` token
is any other text. -/
inductive Tok where
  | num (q : ℚ)
  | raw (s : String)
deriving DecidableEq

/-- Errors of the embedded Python fragments.  `key`, `value` and `index`
model `KeyError`, `ValueError` and `IndexError`; `fuel` marks an
exhausted recursion budget (the source recursion not returning). -/
inductive Err where
  | key
  | value
  | index
  | fuel
deriving DecidableEq

/-- Model of a Python dict key as used by `move_bonded_atoms`: either an
`int` or a raw string token.  The two never compare equal, as in
Python. -/
inductive PyKey where
  | int (n : ℤ)
  | tok (t : Tok)
deriving DecidableEq

/-- Python `float(token)`: succeeds exactly on numeric tokens. -/
def pyFloat : Tok → Except Err ℚ
  | .num q => .ok q
  | .raw _ => .error .value

/-- Python `int(token)`: succeeds on numeric tokens denoting an
integer. -/
def pyInt : Tok → Except Err ℤ
  | .num q => if q.den = 1 then .ok q.num else .error .value
  | .raw _ => .error .value

/-- One child section of the configuration element, as stored in the
morphology dictionary: the pair of entries `tag + '_attrib'` (attribute
keys are stored lower-cased) and `tag + '_text'` (rows of tokens). -/
structure Section where
  attrib : List (String × Tok)
  text : List (List Tok)
deriving DecidableEq

/-- The in-memory morphology dictionary built by `load_morphology_xml`:
the `root_*` and `config_*` entries plus one `Section` per child tag, in
insertion order. -/
structure Morph where
  root_tag : String
  root_attrib : List (String × Tok)
  root_text : Option String
  config_tag : String
  config_attrib : List (String × Tok)
  config_text : Option String
  children : List (String × Section)
deriving DecidableEq

/-- Ordered-dict update: replace the value at the first occurrence of
`k`, keeping its position; append `(k, v)` if `k` is absent.  This is
Python dict assignment restricted to the association lists used here. -/
def odSet {κ α : Type} [DecidableEq κ] : List (κ × α) → κ → α → List (κ × α)
  | [], k, v => [(k, v)]
  | (k', v') :: rest, k, v =>
    if k' = k then (k, v) :: rest else (k', v') :: odSet rest k v

/-- Dictionary lookup of a section (`morphology[tag + '_attrib']` /
`morphology[tag + '_text']`); missing tag is a `KeyError`. -/
def Morph.getSection (m : Morph) (tag : String) : Except Err Section :=
  match m.children.lookup tag with
  | some s => .ok s
  | none => .error .key

/-- Rows of `morphology[tag + '_text']`. -/
def Morph.getText (m : Morph) (tag : String) : Except Err (List (List Tok)) :=
  (m.getSection tag).map Section.text

/-- Attribute list of `morphology[tag + '_attrib']`. -/
def Morph.getAttrib (m : Morph) (tag : String) : Except Err (List (String × Tok)) :=
  (m.getSection tag).map Section.attrib

/-- Attribute lookup inside a section (`attrib[key]`). -/
def attrGet (attrib : List (String × Tok)) (k : String) : Except Err Tok :=
  match attrib.lookup k with
  | some v => .ok v
  | none => .error .key

/-- Python list indexing `xs[i]` with an `int` index, restricted to
nonnegative indices (the source never indexes these lists negatively;
Python's wrap-around for negative indices is not modelled and yields the
`IndexError` case here). -/
def listAt {α : Type} (xs : List α) (i : ℤ) : Except Err α :=
  if i < 0 then .error .index
  else match xs.get? i.toNat with
    | some x => .ok x
    | none => .error .index

/-- Token at position `i` of a row (`bond[i]`). -/
def tokAt (row : List Tok) (i : ℕ) : Except Err Tok :=
  match row.get? i with
  | some t => .ok t
  | none => .error .index

/-- The three box lengths, as in
`[float(morphology['box_attrib'][axis]) for axis in ['lx','ly','lz']]`. -/
structure Box where
  lx : ℚ
  ly : ℚ
  lz : ℚ
deriving DecidableEq

/-- Python `box_dims[axis]` for the three-element list of box lengths:
in-range axes yield the length, others an `IndexError`. -/
def Box.getAxis (b : Box) : ℕ → Except Err ℚ
  | 0 => .ok b.lx
  | 1 => .ok b.ly
  | 2 => .ok b.lz
  | _ => .error .index

/-- Reads `lx`, `ly`, `lz` from the box section (lines 324-325 and
413-414 of generate.py). -/
def boxDims (m : Morph) : Except Err Box := do
  let attrib ← m.getAttrib "box"
  let lx ← pyFloat (← attrGet attrib "lx")
  let ly ← pyFloat (← attrGet attrib "ly")
  let lz ← pyFloat (← attrGet attrib "lz")
  pure ⟨lx, ly, lz⟩

/-- Body of the loop `while position > hi: position -= L; image += 1`
of `check_wrapped_positions` (lines 337-339 etc.), iterated at most `n`
times.  The guard `0 < L` is part of the stopping condition so that the
function is total; see `wrapHigh`. -/
def wrapHighAux (L hi : ℚ) : ℕ → ℚ → ℤ → ℚ × ℤ
  | 0, p, img => (p, img)
  | n + 1, p, img =>
    if 0 < L ∧ hi < p then wrapHighAux L hi n (p - L) (img + 1) else (p, img)

/-- The loop `while position > hi: position -= L; image += 1` of
`check_wrapped_positions`.  The source loop runs exactly
`max 0 ⌈(p - hi)/L⌉` iterations when `0 < L`, which is supplied as
fuel, so the function satisfies the loop equation `wrapHigh_step`
below.  When `L ≤ 0` the source loop would never terminate on `p > hi`;
the model leaves such inputs unchanged (no theorem below relies on that
degenerate case). -/
def wrapHigh (L hi p : ℚ) (img : ℤ) : ℚ × ℤ :=
  wrapHighAux L hi (⌈(p - hi) / L⌉).toNat p img

/-- Body of the loop `while position < lo: position += L; image -= 1`
of `check_wrapped_positions` (lines 340-342 etc.). -/
def wrapLowAux (L lo : ℚ) : ℕ → ℚ → ℤ → ℚ × ℤ
  | 0, p, img => (p, img)
  | n + 1, p, img =>
    if 0 < L ∧ p < lo then wrapLowAux L lo n (p + L) (img - 1) else (p, img)

/-- The loop `while position < lo: position += L; image -= 1` of
`check_wrapped_positions`, with fuel as in `wrapHigh`. -/
def wrapLow (L lo p : ℚ) (img : ℤ) : ℚ × ℤ :=
  wrapLowAux L lo (⌈(lo - p) / L⌉).toNat p img

/-- Both while-loops of one axis of `check_wrapped_positions`: first the
high loop, then the low loop, against the bounds `±L/2`. -/
def wrapAxis (L : ℚ) (p : ℚ) (img : ℤ) : ℚ × ℤ :=
  let r := wrapHigh L (L / 2) p img
  wrapLow L (-(L / 2)) r.1 r.2

/-- A triple of per-axis values (one particle's position or image
row). -/
structure Vec3 (α : Type) where
  x : α
  y : α
  z : α
deriving DecidableEq

/-- Parse one position row, `np.array(list(map(float, row)))`, for the
wrapping pass, which then indexes components 0, 1, 2: rows that are not
three numeric tokens error (`ValueError` from `float`, or numpy's
ragged-array/short-row failure, folded into one error case). -/
def parseQ3 (row : List Tok) : Except Err (Vec3 ℚ) :=
  match row with
  | [a, b, c] => do pure ⟨← pyFloat a, ← pyFloat b, ← pyFloat c⟩
  | _ => .error .value

/-- Parse one image row, `np.array(list(map(int, row)))`, as for
`parseQ3`. -/
def parseZ3 (row : List Tok) : Except Err (Vec3 ℤ) :=
  match row with
  | [a, b, c] => do pure ⟨← pyInt a, ← pyInt b, ← pyInt c⟩
  | _ => .error .value

/-- Render a wrapped position row, `list(map(str, _))`. -/
def renderQ3 (v : Vec3 ℚ) : List Tok :=
  [.num v.x, .num v.y, .num v.z]

/-- Render a wrapped image row, `list(map(str, _))` over integers. -/
def renderZ3 (v : Vec3 ℤ) : List Tok :=
  [.num (v.x : ℚ), .num (v.y : ℚ), .num (v.z : ℚ)]

/-- Wrap one particle: the six while-loops of lines 337-354, axis by
axis. -/
def wrap3 (dims : Box) (p : Vec3 ℚ) (i : Vec3 ℤ) : Vec3 ℚ × Vec3 ℤ :=
  let rx := wrapAxis dims.lx p.x i.x
  let ry := wrapAxis dims.ly p.y i.y
  let rz := wrapAxis dims.lz p.z i.z
  (⟨rx.1, ry.1, rz.1⟩, ⟨rx.2, ry.2, rz.2⟩)

/-- The loop `for atom_ID in range(len(atom_positions))` of
`check_wrapped_positions`: each position is wrapped against its image
row; a missing image row is the source's `IndexError`, and image rows
beyond the positions are left untouched (the source never visits
them but writes them back). -/
def wrapPairs (dims : Box) :
    List (Vec3 ℚ) → List (Vec3 ℤ) → Except Err (List (Vec3 ℚ) × List (Vec3 ℤ))
  | [], is => .ok ([], is)
  | _ :: _, [] => .error .index
  | p :: ps, i :: is => do
    let w := wrap3 dims p i
    let rest ← wrapPairs dims ps is
    pure (w.1 :: rest.1, w.2 :: rest.2)

/-- Replace the text rows of section `tag`, keeping its attributes
(Python `morphology[tag + '_text'] = rows`).  All users below only call
it for sections that exist; for an absent tag it appends a section with
empty attributes. -/
def Morph.setText (m : Morph) (tag : String) (rows : List (List Tok)) : Morph :=
  match m.children.lookup tag with
  | some s => { m with children := odSet m.children tag ⟨s.attrib, rows⟩ }
  | none => { m with children := odSet m.children tag ⟨[], rows⟩ }

/-- Lines 323-359 of generate.py: `check_wrapped_positions`.  Reads the
box, parses every position and image row, wraps each particle into
`[-L/2, +L/2]` while updating its image counters, and writes both
sections back as freshly rendered rows. -/
def check_wrapped_positions (m : Morph) : Except Err Morph := do
  let dims ← boxDims m
  let posRows ← m.getText "position"
  let imgRows ← m.getText "image"
  let ps ← posRows.mapM parseQ3
  let is ← imgRows.mapM parseZ3
  let pr ← wrapPairs dims ps is
  pure ((m.setText "position" (pr.1.map renderQ3)).setText "image"
    (pr.2.map renderZ3))

/-- Element `i` of a Python list (`xs[i]`, nonnegative literal index). -/
def nthE {α : Type} (xs : List α) (i : ℕ) : Except Err α :=
  match xs.get? i with
  | some x => .ok x
  | none => .error .index

/-- One named section element of the on-disk document.  `text = none`
models an element without a text payload; otherwise the payload is the
list of its lines, each line a list of whitespace-delimited tokens
(exact whitespace is below the granularity of the model). -/
structure XSection where
  tag : String
  attrib : List (String × Tok)
  text : Option (List (List Tok))
deriving DecidableEq

/-- The configuration element of the on-disk document. -/
structure XConfig where
  tag : String
  attrib : List (String × Tok)
  text : Option String
  sections : List XSection
deriving DecidableEq

/-- The on-disk document: a root element whose children are
configuration elements (a well-formed file has exactly one). -/
structure XDoc where
  tag : String
  attrib : List (String × Tok)
  text : Option String
  configs : List XConfig
deriving DecidableEq

/-- Python `str.lower()` on an attribute key, modelled character by
character (the keys met here are ASCII). -/
def pyLower (s : String) : String :=
  ⟨s.data.map Char.toLower⟩

/-- The attribute dict comprehension of lines 311-312:
`{key.lower(): val for key, val in child.attrib.items()}`. -/
def lowerKeys (attrib : List (String × Tok)) : List (String × Tok) :=
  attrib.foldl (fun acc kv => odSet acc (pyLower kv.1) kv.2) []

/-- Lines 309-319, one child: insert `tag_attrib` (lower-cased keys) and
`tag_text` (lines split into tokens, raw-empty lines dropped by the
`if len(x) > 0` filter; whitespace-only lines, which the source would
keep as empty rows, are below token granularity and not modelled). -/
def loadSection (acc : List (String × Section)) (s : XSection) :
    List (String × Section) :=
  odSet acc s.tag
    ⟨lowerKeys s.attrib,
     match s.text with
     | none => []
     | some lines => lines.filter (fun l => l ≠ [])⟩

/-- Lines 297-320: `load_morphology_xml`.  The `for config in root` loop
overwrites the `config_*` entries on each iteration (the last
configuration element wins) and accumulates every configuration's child
sections.  A document with no configuration element leaves the
`config_*` keys unset, which the source turns into a `KeyError` at first
use downstream; the model surfaces that `KeyError` here. -/
def load_morphology_xml (d : XDoc) : Except Err Morph :=
  match d.configs with
  | [] => .error .key
  | c :: cs =>
    let cfg := (c :: cs).getLast (List.cons_ne_nil c cs)
    .ok { root_tag := d.tag
          root_attrib := d.attrib
          root_text := d.text
          config_tag := cfg.tag
          config_attrib := cfg.attrib
          config_text := cfg.text
          children := (((c :: cs).map XConfig.sections).flatten).foldl loadSection [] }

/-- Lines 380-390 of `write_morphology_xml`: recover the child tags from
the dictionary keys (each tag appears once for its `_attrib` key and
once for its `_text` key), drop `root`/`config` and empty tags, and
deduplicate keeping first occurrences. -/
def writeChildTags (seen : List String) : List String → List String
  | [] => []
  | t :: rest =>
    if t = "root" ∨ t = "config" ∨ t = "" ∨ seen.contains t then
      writeChildTags seen rest
    else t :: writeChildTags (t :: seen) rest

/-- Lines 391-400: rebuild one child element.  The text payload is the
tab/newline join of the rows; it is empty — and the element is emitted
without text — exactly when the rows are `[]` or a single empty row. -/
def buildSection (m : Morph) (tag : String) : XSection :=
  let s := ((m.children.lookup tag).getD ⟨[], []⟩)
  { tag := tag
    attrib := s.attrib
    text := if s.text = [] ∨ s.text = [[]] then none else some s.text }

/-- Lines 370-402 of `write_morphology_xml`: rebuild the element tree
from the dictionary, in stored key order. -/
def buildTree (m : Morph) : XDoc :=
  { tag := m.root_tag
    attrib := m.root_attrib
    text := m.root_text
    configs := [{ tag := m.config_tag
                  attrib := m.config_attrib
                  text := m.config_text
                  sections := (writeChildTags []
                    (((m.children.map Prod.fst).map (fun t => [t, t])).flatten)).map
                    (buildSection m) }] }

/-- Lines 362-404: `write_morphology_xml` first re-wraps every position
via `check_wrapped_positions` (line 369) and then serializes the tree. -/
def write_morphology_xml (m : Morph) : Except Err XDoc := do
  let m' ← check_wrapped_positions m
  pure (buildTree m')

/-- Lines 258-262: `zero_out_images` replaces the image rows with
`[['0','0','0']] * len(position_text)` and the image attributes with
`{'num': position_attrib['num']}`. -/
def zero_out_images (m : Morph) : Except Err Morph := do
  let posRows ← m.getText "position"
  let posAttrib ← m.getAttrib "position"
  let num ← attrGet posAttrib "num"
  let imageSec : Section :=
    ⟨[("num", num)], List.replicate posRows.length [.num 0, .num 0, .num 0]⟩
  pure { m with children := odSet m.children "image" imageSec }

/-- The adjacency mapping built by `get_bond_dict`: Python dict from
particle index to the list of bonded indices.  Its keys are the `int`s
`0 .. len(type_text) - 1`. -/
abbrev BondDict := List (PyKey × List ℤ)

/-- Python `bond_dict[k]`: `KeyError` when `k` is not a key.  In
particular a *string* key never matches the `int` keys the dict was
built with. -/
def dictGet (bd : BondDict) (k : PyKey) : Except Err (List ℤ) :=
  match bd.lookup k with
  | some v => .ok v
  | none => .error .key

/-- One iteration of the `for bond in morphology['bond_text']` loop of
`get_bond_dict` (lines 268-270): append each endpoint to the other's
adjacency list, failing with `KeyError` when an endpoint is not a dict
key. -/
def bondDictStep (bd : BondDict) (bond : List Tok) : Except Err BondDict := do
  let i1 ← pyInt (← tokAt bond 1)
  let l1 ← dictGet bd (.int i1)
  let i2 ← pyInt (← tokAt bond 2)
  let bd1 := odSet bd (.int i1) (l1 ++ [i2])
  let l2 ← dictGet bd1 (.int i2)
  pure (odSet bd1 (.int i2) (l2 ++ [i1]))

/-- Lines 265-271: `get_bond_dict`.  One empty list per particle index,
then both directions of every bond row appended in order. -/
def get_bond_dict (m : Morph) : Except Err BondDict := do
  let types ← m.getText "type"
  let bonds ← m.getText "bond"
  let init : BondDict := (List.range types.length).map (fun i => (.int (i : ℤ), []))
  bonds.foldlM bondDictStep init

/-- Parse position row `i`:
`np.array(list(map(float, morphology['position_text'][i])))`. -/
def posRowQ (m : Morph) (i : ℤ) : Except Err (List ℚ) := do
  let rows ← m.getText "position"
  let row ← listAt rows i
  row.mapM pyFloat

/-- The orphaned expression statement on lines 241-242 and 245-246 of
`check_bonds`: `+ (np.array(list(map(float, image_row))) * box_dims)`
begins a fresh statement (the previous assignment's brackets are closed),
so its value is discarded — the image term is *not* added to the
position — but its evaluation, and therefore its possible errors, still
happen.  The `* box_dims` product needs the image row to match the
three box entries (numpy's length-1 broadcast corner is not
modelled). -/
def imageTermDiscarded (m : Morph) (_dims : Box) (i : ℤ) : Except Err Unit := do
  let rows ← m.getText "image"
  let row ← listAt rows i
  let vals ← row.mapM pyFloat
  if vals.length = 3 then pure () else .error .value

/-- The per-bond test of `check_bonds` (lines 239-250): positions of the
two endpoints (the image terms are computed but discarded, see
`imageTermDiscarded`), componentwise difference, and
`any(np.abs(delta_position[axis]) > box_dims[axis] / 2.0 for axis in
range(3))`. -/
def bondOutOfRange (m : Morph) (dims : Box) (bond : List Tok) : Except Err Bool := do
  let i1 ← pyInt (← tokAt bond 1)
  let posn1 ← posRowQ m i1
  let _ ← imageTermDiscarded m dims i1
  let i2 ← pyInt (← tokAt bond 2)
  let posn2 ← posRowQ m i2
  let _ ← imageTermDiscarded m dims i2
  if posn1.length = posn2.length then
    let delta := List.zipWith (fun a b => a - b) posn1 posn2
    let d0 ← nthE delta 0
    let d1 ← nthE delta 1
    let d2 ← nthE delta 2
    pure (decide (dims.lx / 2 < |d0|) || decide (dims.ly / 2 < |d1|)
      || decide (dims.lz / 2 < |d2|))
  else .error .value

/-- Read the position row of the central atom of `move_bonded_atoms`.
When `check_bonds` passes the raw string token, the dict lookup in
`move_bonded_atoms` fails before this is ever reached; indexing a list
by a string (Python `TypeError`) is mapped to the `value` error. -/
def posRowOfKey (m : Morph) (k : PyKey) : Except Err (List ℚ) :=
  match k with
  | .int i => posRowQ m i
  | .tok _ => .error .value

/-- `morphology['position_text'][bonded_atom][axis] = str(v)` (lines
283-285 and 287-289).  The callers only reach this with a valid row
index and an axis inside the row, so the fallback branches are
unreachable. -/
def updPos (m : Morph) (b : ℤ) (axis : ℕ) (v : ℚ) : Morph :=
  match m.children.lookup "position" with
  | none => m
  | some s =>
    if b < 0 then m
    else match s.text.get? b.toNat with
      | none => m
      | some row =>
        let sec : Section := ⟨s.attrib, s.text.set b.toNat (row.set axis (.num v))⟩
        { m with children := odSet m.children "position" sec }

/-- The `for axis, value in enumerate(delta_position)` loop of
`move_bonded_atoms` (lines 282-290).  Each element carries the delta
value and the snapshot `posn2[axis]`; both `if`s are tested in sequence
(they are not exclusive when a box length is negative), and
`box_dims[axis]` raises `IndexError` past the third axis. -/
def correctAxes (dims : Box) (b : ℤ) :
    ℕ → List (ℚ × ℚ) → Morph → Bool → Except Err (Morph × Bool)
  | _, [], m, moved => .ok (m, moved)
  | axis, (d, p2) :: rest, m, moved => do
    let L ← dims.getAxis axis
    let s1 : Morph × Bool :=
      if L / 2 < d then (updPos m b axis (p2 + L), true) else (m, moved)
    let s2 : Morph × Bool :=
      if d < -(L / 2) then (updPos s1.1 b axis (p2 - L), true) else s1
    correctAxes dims b (axis + 1) rest s2.1 s2.2

/-- One iteration of the neighbor loop of `move_bonded_atoms` (lines
276-290): read both position rows from the current morphology, form the
per-axis deltas `posn1 - posn2`, and apply the whole-box-length
corrections to the bonded atom's row. -/
def correctNeighbor (dims : Box) (m : Morph) (central : PyKey) (b : ℤ) :
    Except Err (Morph × Bool) := do
  let posn1 ← posRowOfKey m central
  let posn2 ← posRowQ m b
  if posn1.length = posn2.length then
    correctAxes dims b 0 ((List.zipWith (fun a c => a - c) posn1 posn2).zip posn2) m false
  else .error .value

/-- Lines 274-294: `move_bonded_atoms`.  Iterates over
`bond_dict[central_atom]` — a `KeyError` when the central atom is a
string token, since the dict keys are `int`s — and recurses into every
neighbor it moved.  The source recursion is unbounded; `fuel` bounds the
model, with `Err.fuel` marking a computation the source never
finishes. -/
def move_bonded_atoms : ℕ → BondDict → Box → PyKey → Morph → Except Err Morph
  | 0, _, _, _, _ => .error .fuel
  | fuel + 1, bd, dims, central, m =>
    match dictGet bd central with
    | .error e => .error e
    | .ok nbrs =>
      nbrs.foldlM (fun mcur b => do
        let r ← correctNeighbor dims mcur central b
        if r.2 then move_bonded_atoms fuel bd dims (.int b) r.1
        else pure r.1) m

/-- The body of the `for bonded_atom in bond_dict[central_atom]` loop,
as folded by `move_bonded_atoms` at the given recursion budget. -/
def moveStep (fuel : ℕ) (bd : BondDict) (dims : Box) (central : PyKey)
    (mcur : Morph) (b : ℤ) : Except Err Morph := do
  let r ← correctNeighbor dims mcur central b
  if r.2 then move_bonded_atoms fuel bd dims (.int b) r.1
  else pure r.1

/-- Unfolding equation of `move_bonded_atoms` at positive fuel, with the
loop body named. -/
theorem move_bonded_atoms_succ (fuel : ℕ) (bd : BondDict) (dims : Box)
    (central : PyKey) (m : Morph) :
    move_bonded_atoms (fuel + 1) bd dims central m =
      match dictGet bd central with
      | .error e => .error e
      | .ok nbrs => nbrs.foldlM (moveStep fuel bd dims central) m := rfl

/-- The `for bond in morphology['bond_text']` loop of `check_bonds`
(lines 238-254).  A flagged bond calls `move_bonded_atoms` with
`bond[1]` — the bond row's *first particle-index token*, as a raw
string. -/
def checkBondsLoop (fuel : ℕ) (bd : BondDict) (dims : Box) :
    List (List Tok) → Morph → Except Err Morph
  | [], m => .ok m
  | bond :: rest, m => do
    let oor ← bondOutOfRange m dims bond
    if oor then do
      let t1 ← tokAt bond 1
      let m' ← move_bonded_atoms fuel bd dims (.tok t1) m
      checkBondsLoop fuel bd dims rest m'
    else
      checkBondsLoop fuel bd dims rest m

/-- Lines 237-255: `check_bonds`. -/
def check_bonds (fuel : ℕ) (bd : BondDict) (dims : Box) (m : Morph) :
    Except Err Morph := do
  let bonds ← m.getText "bond"
  checkBondsLoop fuel bd dims bonds m

/-- Lines 407-416: `fix_images`, the pipeline driver: parse, zero the
image flags, build the bond graph, read the box, scan-and-relocate, and
serialize (the serializer itself runs the image wrap, line 369). -/
def fix_images (fuel : ℕ) (d : XDoc) : Except Err XDoc := do
  let m ← load_morphology_xml d
  let m1 ← zero_out_images m
  let bd ← get_bond_dict m1
  let dims ← boxDims m1
  let m2 ← check_bonds fuel bd dims m1
  write_morphology_xml m2

/-- Modelled from the spec (§4.4, Boundary-Bond Scan): the criterion as
the spec words it — each endpoint's reconstructed true position
`wrapped_position + image_offset * box_length`, componentwise delta,
flagged iff some axis delta's absolute value exceeds `L_axis / 2`.
Stated only for comparison with `bondOutOfRange`, whose source discards
the image term (see `imageTermDiscarded`). -/
def bondOutOfRangeSpec (m : Morph) (dims : Box) (bond : List Tok) :
    Except Err Bool := do
  let i1 ← pyInt (← tokAt bond 1)
  let p1 ← parseQ3 (← listAt (← m.getText "position") i1)
  let g1 ← parseZ3 (← listAt (← m.getText "image") i1)
  let i2 ← pyInt (← tokAt bond 2)
  let p2 ← parseQ3 (← listAt (← m.getText "position") i2)
  let g2 ← parseZ3 (← listAt (← m.getText "image") i2)
  let r1 : Vec3 ℚ :=
    ⟨p1.x + (g1.x : ℚ) * dims.lx, p1.y + (g1.y : ℚ) * dims.ly, p1.z + (g1.z : ℚ) * dims.lz⟩
  let r2 : Vec3 ℚ :=
    ⟨p2.x + (g2.x : ℚ) * dims.lx, p2.y + (g2.y : ℚ) * dims.ly, p2.z + (g2.z : ℚ) * dims.lz⟩
  pure (decide (dims.lx / 2 < |r1.x - r2.x|) || decide (dims.ly / 2 < |r1.y - r2.y|)
    || decide (dims.lz / 2 < |r1.z - r2.z|))

/-- Modelled from the spec (§2, Pipeline Driver): the claimed phase order
`Parser → zero image flags → Bond Graph → Image Wrapper → boundary-bond
scan → Cluster Relocator → Serializer`, with no re-wrap after
relocation.  Stated only for comparison with `fix_images`, which runs
the wrap inside the serializer, after the scan. -/
def fixImagesSpecOrder (fuel : ℕ) (d : XDoc) : Except Err XDoc := do
  let m ← load_morphology_xml d
  let m1 ← zero_out_images m
  let bd ← get_bond_dict m1
  let dims ← boxDims m1
  let m2 ← check_wrapped_positions m1
  let m3 ← check_bonds fuel bd dims m2
  pure (buildTree m3)

/-- Observation: the parsed position rows of a morphology, as the
particles' per-axis coordinates. -/
def posVecs (m : Morph) : Except Err (List (Vec3 ℚ)) := do
  let rows ← m.getText "position"
  rows.mapM parseQ3

/-- Observation: the parsed image rows of a morphology. -/
def imgVecs (m : Morph) : Except Err (List (Vec3 ℤ)) := do
  let rows ← m.getText "image"
  rows.mapM parseZ3

/-- One particle's reconstructed true position
`wrapped_position + image_offset * box_length`, per axis. -/
def reconOne (dims : Box) (p : Vec3 ℚ) (i : Vec3 ℤ) : Vec3 ℚ :=
  ⟨p.x + (i.x : ℚ) * dims.lx, p.y + (i.y : ℚ) * dims.ly,
   p.z + (i.z : ℚ) * dims.lz⟩

/-- Observation: every particle's reconstructed true position. -/
def reconPositions (m : Morph) : Except Err (List (Vec3 ℚ)) := do
  let dims ← boxDims m
  let ps ← posVecs m
  let is ← imgVecs m
  pure (List.zipWith (reconOne dims) ps is)

/-- Observation for the round-trip property: parse, serialize with no
mutation in between, re-parse, and return the position rows of the first
parse next to those of the re-parse. -/
def roundTripPositions (d : XDoc) :
    Except Err (List (List Tok) × List (List Tok)) := do
  let m ← load_morphology_xml d
  let t ← write_morphology_xml m
  let m' ← load_morphology_xml t
  let p ← m.getText "position"
  let p' ← m'.getText "position"
  pure (p, p')

/-- Observation: the (unique) section named `tag` of a serialized
document with a single configuration element. -/
def treeSection (t : XDoc) (tag : String) : Except Err XSection := do
  let c ← match t.configs with
    | [c] => Except.ok c
    | _ => Except.error Err.key
  match c.sections.find? (fun s => s.tag == tag) with
  | some s => .ok s
  | none => .error .key

/-- Observation: the position rows of a serialized document. -/
def treePosVecs (t : XDoc) : Except Err (List (Vec3 ℚ)) := do
  let s ← treeSection t "position"
  (match s.text with
   | none => ([] : List (List Tok))
   | some lines => lines).mapM parseQ3

/-- Observation: the box lengths recorded in a serialized document. -/
def treeBoxDims (t : XDoc) : Except Err Box := do
  let s ← treeSection t "box"
  let lx ← pyFloat (← attrGet s.attrib "lx")
  let ly ← pyFloat (← attrGet s.attrib "ly")
  let lz ← pyFloat (← attrGet s.attrib "lz")
  pure ⟨lx, ly, lz⟩

/-- Decidable check that every key of a bond dict is an `int` — true of
every dict `get_bond_dict` builds. -/
def intKeyed (bd : BondDict) : Bool :=
  bd.all (fun p => match p.1 with
    | .int _ => true
    | .tok _ => false)

/-- Relation: `m'` agrees with `m` everywhere except possibly in the text
rows of the `position` section — same root and configuration entries,
same section tags in the same order, same attributes, and identical text
rows for every section other than `position`. -/
def OnlyPosTextDiffer (m m' : Morph) : Prop :=
  m'.root_tag = m.root_tag ∧ m'.root_attrib = m.root_attrib ∧
  m'.root_text = m.root_text ∧ m'.config_tag = m.config_tag ∧
  m'.config_attrib = m.config_attrib ∧ m'.config_text = m.config_text ∧
  List.Forall₂ (fun (p q : String × Section) =>
    p.1 = q.1 ∧ p.2.attrib = q.2.attrib ∧ (p.1 ≠ "position" → p.2.text = q.2.text))
    m.children m'.children

/-- Well-formedness of a parsed morphology, as needed for a lossless
round trip: distinct section tags, none of them `root`, `config` or
empty; attribute keys already lower-case and distinct per section; no
empty text row; and a box/position/image particle block whose positions
are already inside `[-L/2, +L/2]` on every axis. -/
def wfMorph (m : Morph) : Bool :=
  decide (m.children.map Prod.fst).Nodup &&
  m.children.all (fun p => p.1 != "root" && p.1 != "config" && p.1 != "") &&
  m.children.all (fun p => decide (p.2.attrib.map Prod.fst).Nodup) &&
  m.children.all (fun p => p.2.attrib.all (fun kv => pyLower kv.1 == kv.1)) &&
  m.children.all (fun p => p.2.text.all (fun row => !row.isEmpty)) &&
  (match boxDims m, posVecs m, imgVecs m with
   | .ok dims, .ok ps, .ok is =>
     decide (ps.length ≤ is.length) &&
     ps.all (fun p =>
       decide (-(dims.lx / 2) ≤ p.x ∧ p.x ≤ dims.lx / 2) &&
       decide (-(dims.ly / 2) ≤ p.y ∧ p.y ≤ dims.ly / 2) &&
       decide (-(dims.lz / 2) ≤ p.z ∧ p.z ≤ dims.lz / 2))
   | _, _, _ => false)

/-- Well-formedness of an on-disk document: it parses, and the parse is
well-formed in the sense of `wfMorph`. -/
def wfDoc (d : XDoc) : Bool :=
  match load_morphology_xml d with
  | .ok m => wfMorph m
  | .error _ => false

/-- A cubic box of edge 10, used by the concrete examples. -/
def box10 : Box := ⟨10, 10, 10⟩

/-- Box section with `lx = ly = lz = 10`. -/
def secBox10 : Section := ⟨[("lx", .num 10), ("ly", .num 10), ("lz", .num 10)], []⟩

/-- Two bonded particles at `(4.9, 0, 0)` and `(-4.9, 0, 0)` in the box
of edge 10 (the spec's end-to-end scenario), images zero. -/
def pairM : Morph :=
  { root_tag := "hoomd_xml"
    root_attrib := []
    root_text := none
    config_tag := "configuration"
    config_attrib := []
    config_text := none
    children :=
      [("box", secBox10),
       ("position", ⟨[("num", .num 2)],
         [[.num 4.9, .num 0, .num 0], [.num (-4.9), .num 0, .num 0]]⟩),
       ("image", ⟨[("num", .num 2)],
         [[.num 0, .num 0, .num 0], [.num 0, .num 0, .num 0]]⟩),
       ("type", ⟨[("num", .num 2)], [[.raw "A"], [.raw "A"]]⟩),
       ("bond", ⟨[], [[.raw "polymer", .num 0, .num 1]]⟩)] }

/-- The adjacency dict of `pairM` (what `get_bond_dict` builds for
it). -/
def pairBd : BondDict := [(.int 0, [1]), (.int 1, [0])]

/-- `pairM` after the relocation `correctNeighbor box10 pairM (.int 0) 1`:
particle 1 — the *second* particle index of the bond record — has been
moved to `(5.1, 0, 0)`; particle 0 is untouched. -/
def pairMoved : Morph :=
  { pairM with children :=
      [("box", secBox10),
       ("position", ⟨[("num", .num 2)],
         [[.num 4.9, .num 0, .num 0], [.num 5.1, .num 0, .num 0]]⟩),
       ("image", ⟨[("num", .num 2)],
         [[.num 0, .num 0, .num 0], [.num 0, .num 0, .num 0]]⟩),
       ("type", ⟨[("num", .num 2)], [[.raw "A"], [.raw "A"]]⟩),
       ("bond", ⟨[], [[.raw "polymer", .num 0, .num 1]]⟩)] }

/-- Like `pairM` but with the second particle's image set to
`(1, 0, 0)`: its reconstructed true position is `(5.1, 0, 0)`, only
`0.2` away from particle 0 — yet the source scan, which discards the
image term, still sees a delta of `9.8`. -/
def imgM : Morph :=
  { pairM with children :=
      [("box", secBox10),
       ("position", ⟨[("num", .num 2)],
         [[.num 4.9, .num 0, .num 0], [.num (-4.9), .num 0, .num 0]]⟩),
       ("image", ⟨[("num", .num 2)],
         [[.num 0, .num 0, .num 0], [.num 1, .num 0, .num 0]]⟩),
       ("type", ⟨[("num", .num 2)], [[.raw "A"], [.raw "A"]]⟩),
       ("bond", ⟨[], [[.raw "polymer", .num 0, .num 1]]⟩)] }

/-- The bond row shared by `pairM` and `imgM`. -/
def pairBond : List Tok := [.raw "polymer", .num 0, .num 1]

/-- Stage `k` of the diverging run of `move_bonded_atoms` on a bonded
4-ring in the box of edge 10: positions
`(-10k, 4-10k, 8-10k, 12-10k)` on the x axis.  Stage 0 is the initial
ring; each pass of the relocator around the cycle reproduces the same
shape shifted by a full box length. -/
def ringM (k : ℤ) : Morph :=
  { root_tag := "hoomd_xml"
    root_attrib := []
    root_text := none
    config_tag := "configuration"
    config_attrib := []
    config_text := none
    children :=
      [("position", ⟨[("num", .num 4)],
        [[.num (0 - 10 * (k : ℚ)), .num 0, .num 0],
         [.num (4 - 10 * (k : ℚ)), .num 0, .num 0],
         [.num (8 - 10 * (k : ℚ)), .num 0, .num 0],
         [.num (12 - 10 * (k : ℚ)), .num 0, .num 0]]⟩)] }

/-- `ringM k` after the relocator moved particle 3 next to particle 0:
its x drops from `12-10k` to `2-10k`. -/
def ringMa (k : ℤ) : Morph :=
  { ringM k with children :=
      [("position", ⟨[("num", .num 4)],
        [[.num (0 - 10 * (k : ℚ)), .num 0, .num 0],
         [.num (4 - 10 * (k : ℚ)), .num 0, .num 0],
         [.num (8 - 10 * (k : ℚ)), .num 0, .num 0],
         [.num (2 - 10 * (k : ℚ)), .num 0, .num 0]]⟩)] }

/-- `ringMa k` after particle 2 was moved next to particle 3. -/
def ringMb (k : ℤ) : Morph :=
  { ringM k with children :=
      [("position", ⟨[("num", .num 4)],
        [[.num (0 - 10 * (k : ℚ)), .num 0, .num 0],
         [.num (4 - 10 * (k : ℚ)), .num 0, .num 0],
         [.num (-2 - 10 * (k : ℚ)), .num 0, .num 0],
         [.num (2 - 10 * (k : ℚ)), .num 0, .num 0]]⟩)] }

/-- `ringMb k` after particle 1 was moved next to particle 2. -/
def ringMc (k : ℤ) : Morph :=
  { ringM k with children :=
      [("position", ⟨[("num", .num 4)],
        [[.num (0 - 10 * (k : ℚ)), .num 0, .num 0],
         [.num (-6 - 10 * (k : ℚ)), .num 0, .num 0],
         [.num (-2 - 10 * (k : ℚ)), .num 0, .num 0],
         [.num (2 - 10 * (k : ℚ)), .num 0, .num 0]]⟩)] }

/-- Adjacency of the 4-ring `0-1-2-3-0` (what `get_bond_dict` builds
from its four bond rows). -/
def ringBd : BondDict :=
  [(.int 0, [1, 3]), (.int 1, [0, 2]), (.int 2, [1, 3]), (.int 3, [2, 0])]

/-- A single particle at `(7, 0, 0)` in the box of edge 10 — outside
the primary cell, so the wrap moves it. -/
def unwrappedM : Morph :=
  { root_tag := "hoomd_xml"
    root_attrib := []
    root_text := none
    config_tag := "configuration"
    config_attrib := []
    config_text := none
    children :=
      [("box", secBox10),
       ("position", ⟨[("num", .num 1)], [[.num 7, .num 0, .num 0]]⟩),
       ("image", ⟨[("num", .num 1)], [[.num 0, .num 0, .num 0]]⟩)] }

/-- What the Image Wrapper makes of `unwrappedM`: position `(-3, 0, 0)`
with image `(1, 0, 0)`. -/
def unwrappedMWrapped : Morph :=
  { unwrappedM with children :=
      [("box", secBox10),
       ("position", ⟨[("num", .num 1)], [[.num (-3), .num 0, .num 0]]⟩),
       ("image", ⟨[("num", .num 1)], [[.num 1, .num 0, .num 0]]⟩)] }

/-- An on-disk document with a boundary-crossing bond: particles at
`(7, 0, 0)` and `(0, 0, 0)`, bonded, in the box of edge 10.  The
pre-wrap delta is `7 > 5`, the post-wrap delta would be `-3`. -/
def flaggedDoc : XDoc :=
  { tag := "hoomd_xml"
    attrib := [("version", .num 1.6)]
    text := some "nl"
    configs := [{ tag := "configuration"
                  attrib := [("time_step", .num 0)]
                  text := some "nl"
                  sections :=
                    [⟨"box", [("lx", .num 10), ("ly", .num 10), ("lz", .num 10)], none⟩,
                     ⟨"position", [("num", .num 2)],
                       some [[.num 7, .num 0, .num 0], [.num 0, .num 0, .num 0]]⟩,
                     ⟨"image", [("num", .num 2)],
                       some [[.num 0, .num 0, .num 0], [.num 0, .num 0, .num 0]]⟩,
                     ⟨"type", [("num", .num 2)], some [[.raw "A"], [.raw "A"]]⟩,
                     ⟨"bond", [], some [[.raw "backbone", .num 0, .num 1]]⟩] }] }

/-- An on-disk document the pipeline completes on: particles at
`(7, 0, 0)` and `(4, 0, 0)`, bonded (delta 3, never flagged), box of
edge 10.  The first position is outside `[-5, 5]` and is wrapped by the
serializer. -/
def okDoc : XDoc :=
  { tag := "hoomd_xml"
    attrib := [("version", .num 1.6)]
    text := some "nl"
    configs := [{ tag := "configuration"
                  attrib := [("time_step", .num 0)]
                  text := some "nl"
                  sections :=
                    [⟨"box", [("lx", .num 10), ("ly", .num 10), ("lz", .num 10)], none⟩,
                     ⟨"position", [("num", .num 2)],
                       some [[.num 7, .num 0, .num 0], [.num 4, .num 0, .num 0]]⟩,
                     ⟨"image", [("num", .num 2)],
                       some [[.num 0, .num 0, .num 0], [.num 0, .num 0, .num 0]]⟩,
                     ⟨"type", [("num", .num 2)], some [[.raw "A"], [.raw "A"]]⟩,
                     ⟨"bond", [], some [[.raw "backbone", .num 0, .num 1]]⟩] }] }

/-- A well-formed on-disk document whose positions are already wrapped:
round-trips losslessly. -/
def wrappedDoc : XDoc :=
  { tag := "hoomd_xml"
    attrib := [("version", .num 1.6)]
    text := some "nl"
    configs := [{ tag := "configuration"
                  attrib := [("time_step", .num 0)]
                  text := some "nl"
                  sections :=
                    [⟨"box", [("lx", .num 10), ("ly", .num 10), ("lz", .num 10)], none⟩,
                     ⟨"position", [("num", .num 2)],
                       some [[.num 4.9, .num 0, .num 0], [.num (-4.9), .num 0, .num 0]]⟩,
                     ⟨"image", [("num", .num 2)],
                       some [[.num 0, .num 0, .num 0], [.num 0, .num 0, .num 0]]⟩,
                     ⟨"type", [("num", .num 2)], some [[.raw "A"], [.raw "A"]]⟩,
                     ⟨"bond", [], some [[.raw "backbone", .num 0, .num 1]]⟩] }] }

/-! ### Basic lemmas about the monadic plumbing and ordered-dict
operations -/

/-- Bind on a successful `Except` computation. -/
@[simp] theorem exBind_ok {ε α β : Type} (a : α) (f : α → Except ε β) :
    (Except.ok a >>= f) = f a := rfl

/-- Bind on a failed `Except` computation. -/
@[simp] theorem exBind_error {ε α β : Type} (e : ε) (f : α → Except ε β) :
    ((Except.error e : Except ε α) >>= f) = .error e := rfl

/-- Pure of the `Except` monad. -/
@[simp] theorem exPure {ε α : Type} (a : α) :
    (pure a : Except ε α) = .ok a := rfl

/-- Map on a successful `Except` computation. -/
@[simp] theorem exMap_ok {ε α β : Type} (a : α) (f : α → β) :
    (Except.ok a : Except ε α).map f = .ok (f a) := rfl

/-- Map on a failed `Except` computation. -/
@[simp] theorem exMap_error {ε α β : Type} (e : ε) (f : α → β) :
    (Except.error e : Except ε α).map f = .error e := rfl

/-- Looking up the key just set finds the new value. -/
theorem lookup_odSet_self {κ α : Type} [DecidableEq κ]
    (l : List (κ × α)) (k : κ) (v : α) : (odSet l k v).lookup k = some v := by
  induction l with
  | nil => simp [odSet, List.lookup]
  | cons hd tl ih =>
    by_cases h : hd.1 = k
    · simp [odSet, h, List.lookup]
    · have hne : (k == hd.1) = false := by
        simp only [beq_eq_false_iff_ne, ne_eq]
        exact fun e => h e.symm
      simp [odSet, h, List.lookup, hne, ih]

/-- Setting one key does not change lookups of other keys. -/
theorem lookup_odSet_ne {κ α : Type} [DecidableEq κ]
    (l : List (κ × α)) (k k' : κ) (v : α) (h : k' ≠ k) :
    (odSet l k v).lookup k' = l.lookup k' := by
  have hne : (k' == k) = false := by
    simp only [beq_eq_false_iff_ne, ne_eq]
    exact h
  induction l with
  | nil => simp [odSet, List.lookup, hne]
  | cons hd tl ih =>
    by_cases hh : hd.1 = k
    · subst hh
      simp [odSet, List.lookup, hne]
    · simp only [odSet, if_neg hh]
      by_cases hk' : k' = hd.1
      · subst hk'
        simp [List.lookup]
      · have hne2 : (k' == hd.1) = false := by
          simp only [beq_eq_false_iff_ne, ne_eq]
          exact hk'
        simp [List.lookup, hne2, ih]

/-- Setting a key to the value it already holds is the identity. -/
theorem odSet_lookup_eq {κ α : Type} [DecidableEq κ]
    (l : List (κ × α)) (k : κ) (v : α) (h : l.lookup k = some v) :
    odSet l k v = l := by
  induction l with
  | nil => simp [List.lookup] at h
  | cons hd tl ih =>
    rcases hd with ⟨k0, v0⟩
    by_cases hh : k0 = k
    · subst hh
      simp [List.lookup] at h
      simp [odSet, h]
    · have hne : (k == k0) = false := by
        simp only [beq_eq_false_iff_ne, ne_eq]
        exact fun e => hh e.symm
      simp only [List.lookup, hne] at h
      simp [odSet, hh, ih h]

/-- `odSet` preserves the key list when the key is already present. -/
theorem odSet_keys_of_mem {κ α : Type} [DecidableEq κ]
    (l : List (κ × α)) (k : κ) (v : α) (h : k ∈ l.map Prod.fst) :
    (odSet l k v).map Prod.fst = l.map Prod.fst := by
  induction l with
  | nil => simp at h
  | cons hd tl ih =>
    by_cases hh : hd.1 = k
    · simp [odSet, hh]
    · simp only [List.map_cons, List.mem_cons] at h
      rcases h with h | h
      · exact absurd h.symm hh
      · simp [odSet, hh, ih h]

/-- Setting a fresh key appends it. -/
theorem odSet_append_of_not_mem {κ α : Type} [DecidableEq κ]
    (l : List (κ × α)) (k : κ) (v : α) (h : k ∉ l.map Prod.fst) :
    odSet l k v = l ++ [(k, v)] := by
  induction l with
  | nil => simp [odSet]
  | cons hd tl ih =>
    simp only [List.map_cons, List.mem_cons] at h
    push_neg at h
    simp [odSet, Ne.symm h.1, ih h.2]

/-! ### The Image Wrapper loops -/

/-- The loop equation of the source `while position > hi` loop: the
fuel supplied by `wrapHigh` is exactly the number of iterations the
source performs, so the model satisfies the same recurrence. -/
theorem wrapHigh_step (L hi p : ℚ) (img : ℤ) :
    wrapHigh L hi p img =
      if 0 < L ∧ hi < p then wrapHigh L hi (p - L) (img + 1) else (p, img) := by
  unfold wrapHigh
  by_cases h : 0 < L ∧ hi < p
  · have hL := h.1
    have hcount : (⌈(p - hi) / L⌉).toNat = (⌈(p - L - hi) / L⌉).toNat + 1 := by
      have harg : (p - L - hi) / L = (p - hi) / L - 1 := by
        field_simp
        ring
      have hceil : 0 < ⌈(p - hi) / L⌉ :=
        Int.ceil_pos.mpr (div_pos (by linarith [h.2]) hL)
      rw [harg, Int.ceil_sub_one]
      omega
    rw [hcount]
    simp only [wrapHighAux, if_pos h]
  · cases hc : (⌈(p - hi) / L⌉).toNat with
    | zero => simp [wrapHighAux, if_neg h]
    | succ n => simp [wrapHighAux, if_neg h]

/-- The loop equation of the source `while position < lo` loop. -/
theorem wrapLow_step (L lo p : ℚ) (img : ℤ) :
    wrapLow L lo p img =
      if 0 < L ∧ p < lo then wrapLow L lo (p + L) (img - 1) else (p, img) := by
  unfold wrapLow
  by_cases h : 0 < L ∧ p < lo
  · have hL := h.1
    have hcount : (⌈(lo - p) / L⌉).toNat = (⌈(lo - (p + L)) / L⌉).toNat + 1 := by
      have harg : (lo - (p + L)) / L = (lo - p) / L - 1 := by
        field_simp
        ring
      have hceil : 0 < ⌈(lo - p) / L⌉ :=
        Int.ceil_pos.mpr (div_pos (by linarith [h.2]) hL)
      rw [harg, Int.ceil_sub_one]
      omega
    rw [hcount]
    simp only [wrapLowAux, if_pos h]
  · cases hc : (⌈(lo - p) / L⌉).toNat with
    | zero => simp [wrapLowAux, if_neg h]
    | succ n => simp [wrapLowAux, if_neg h]

theorem wrapHighAux_inv (L hi : ℚ) (n : ℕ) : ∀ (p : ℚ) (img : ℤ),
    (wrapHighAux L hi n p img).1 + L * (wrapHighAux L hi n p img).2 =
      p + L * img := by
  induction n with
  | zero => intro p img; simp [wrapHighAux]
  | succ n ih =>
    intro p img
    by_cases h : 0 < L ∧ hi < p
    · simp only [wrapHighAux, if_pos h]
      rw [ih]
      push_cast
      ring
    · simp only [wrapHighAux, if_neg h]

/-- The high loop keeps `position + L * image` constant. -/
theorem wrapHigh_inv (L hi p : ℚ) (img : ℤ) :
    (wrapHigh L hi p img).1 + L * (wrapHigh L hi p img).2 = p + L * img :=
  wrapHighAux_inv L hi _ p img

theorem wrapHighAux_le (L hi : ℚ) (hL : 0 < L) (n : ℕ) : ∀ (p : ℚ) (img : ℤ),
    (⌈(p - hi) / L⌉).toNat ≤ n → (wrapHighAux L hi n p img).1 ≤ hi := by
  induction n with
  | zero =>
    intro p img hn
    simp only [wrapHighAux]
    by_contra hc
    push_neg at hc
    have hceil : 0 < ⌈(p - hi) / L⌉ :=
      Int.ceil_pos.mpr (div_pos (by linarith) hL)
    omega
  | succ n ih =>
    intro p img hn
    by_cases h : 0 < L ∧ hi < p
    · simp only [wrapHighAux, if_pos h]
      apply ih
      have harg : (p - L - hi) / L = (p - hi) / L - 1 := by
        field_simp
        ring
      have hceil : 0 < ⌈(p - hi) / L⌉ :=
        Int.ceil_pos.mpr (div_pos (by linarith [h.2]) hL)
      rw [harg, Int.ceil_sub_one]
      omega
    · simp only [wrapHighAux, if_neg h]
      push_neg at h
      exact h hL

/-- For a positive box length, the high loop ends at or below `hi`. -/
theorem wrapHigh_le (L hi p : ℚ) (img : ℤ) (hL : 0 < L) :
    (wrapHigh L hi p img).1 ≤ hi :=
  wrapHighAux_le L hi hL _ p img le_rfl

theorem wrapHighAux_gt (L hi : ℚ) (n : ℕ) : ∀ (p : ℚ) (img : ℤ),
    hi - L < (wrapHighAux L hi n p img).1 ∨
      wrapHighAux L hi n p img = (p, img) := by
  induction n with
  | zero => intro p img; exact Or.inr rfl
  | succ n ih =>
    intro p img
    by_cases h : 0 < L ∧ hi < p
    · simp only [wrapHighAux, if_pos h]
      rcases ih (p - L) (img + 1) with hlt | heq
      · exact Or.inl hlt
      · rw [heq]
        exact Or.inl (by simp only; linarith [h.2])
    · simp only [wrapHighAux, if_neg h]
      exact Or.inr trivial

/-- The high loop either left its argument alone or stopped above
`hi - L`. -/
theorem wrapHigh_gt (L hi p : ℚ) (img : ℤ) :
    hi - L < (wrapHigh L hi p img).1 ∨ wrapHigh L hi p img = (p, img) :=
  wrapHighAux_gt L hi _ p img

theorem wrapLowAux_inv (L lo : ℚ) (n : ℕ) : ∀ (p : ℚ) (img : ℤ),
    (wrapLowAux L lo n p img).1 + L * (wrapLowAux L lo n p img).2 =
      p + L * img := by
  induction n with
  | zero => intro p img; simp [wrapLowAux]
  | succ n ih =>
    intro p img
    by_cases h : 0 < L ∧ p < lo
    · simp only [wrapLowAux, if_pos h]
      rw [ih]
      push_cast
      ring
    · simp only [wrapLowAux, if_neg h]

/-- The low loop keeps `position + L * image` constant. -/
theorem wrapLow_inv (L lo p : ℚ) (img : ℤ) :
    (wrapLow L lo p img).1 + L * (wrapLow L lo p img).2 = p + L * img :=
  wrapLowAux_inv L lo _ p img

theorem wrapLowAux_ge (L lo : ℚ) (hL : 0 < L) (n : ℕ) : ∀ (p : ℚ) (img : ℤ),
    (⌈(lo - p) / L⌉).toNat ≤ n → lo ≤ (wrapLowAux L lo n p img).1 := by
  induction n with
  | zero =>
    intro p img hn
    simp only [wrapLowAux]
    by_contra hc
    push_neg at hc
    have hceil : 0 < ⌈(lo - p) / L⌉ :=
      Int.ceil_pos.mpr (div_pos (by linarith) hL)
    omega
  | succ n ih =>
    intro p img hn
    by_cases h : 0 < L ∧ p < lo
    · simp only [wrapLowAux, if_pos h]
      apply ih
      have harg : (lo - (p + L)) / L = (lo - p) / L - 1 := by
        field_simp
        ring
      have hceil : 0 < ⌈(lo - p) / L⌉ :=
        Int.ceil_pos.mpr (div_pos (by linarith [h.2]) hL)
      rw [harg, Int.ceil_sub_one]
      omega
    · simp only [wrapLowAux, if_neg h]
      push_neg at h
      exact h hL

/-- For a positive box length, the low loop ends at or above `lo`. -/
theorem wrapLow_ge (L lo p : ℚ) (img : ℤ) (hL : 0 < L) :
    lo ≤ (wrapLow L lo p img).1 :=
  wrapLowAux_ge L lo hL _ p img le_rfl

theorem wrapLowAux_lt (L lo : ℚ) (n : ℕ) : ∀ (p : ℚ) (img : ℤ),
    (wrapLowAux L lo n p img).1 < lo + L ∨
      wrapLowAux L lo n p img = (p, img) := by
  induction n with
  | zero => intro p img; exact Or.inr rfl
  | succ n ih =>
    intro p img
    by_cases h : 0 < L ∧ p < lo
    · simp only [wrapLowAux, if_pos h]
      rcases ih (p + L) (img - 1) with hlt | heq
      · exact Or.inl hlt
      · rw [heq]
        exact Or.inl (by simp only; linarith [h.2])
    · simp only [wrapLowAux, if_neg h]
      exact Or.inr trivial

/-- The low loop either left its argument alone or stopped below
`lo + L`. -/
theorem wrapLow_lt (L lo p : ℚ) (img : ℤ) :
    (wrapLow L lo p img).1 < lo + L ∨ wrapLow L lo p img = (p, img) :=
  wrapLowAux_lt L lo _ p img

/-- A high loop whose condition fails at entry does nothing. -/
theorem wrapHigh_id (L hi p : ℚ) (img : ℤ) (h : ¬(0 < L ∧ hi < p)) :
    wrapHigh L hi p img = (p, img) := by
  rw [wrapHigh_step, if_neg h]

/-- A low loop whose condition fails at entry does nothing. -/
theorem wrapLow_id (L lo p : ℚ) (img : ℤ) (h : ¬(0 < L ∧ p < lo)) :
    wrapLow L lo p img = (p, img) := by
  rw [wrapLow_step, if_neg h]

/-- One axis of the wrap keeps the reconstructed true position
`position + L * image` unchanged. -/
theorem wrapAxis_inv (L p : ℚ) (img : ℤ) :
    (wrapAxis L p img).1 + L * (wrapAxis L p img).2 = p + L * img := by
  unfold wrapAxis
  rw [wrapLow_inv, wrapHigh_inv]

/-- For a positive box length, the wrapped coordinate lies in the closed
interval `[-L/2, L/2]`. -/
theorem wrapAxis_bound (L p : ℚ) (img : ℤ) (hL : 0 < L) :
    -(L / 2) ≤ (wrapAxis L p img).1 ∧ (wrapAxis L p img).1 ≤ L / 2 := by
  unfold wrapAxis
  constructor
  · exact wrapLow_ge L (-(L / 2)) _ _ hL
  · rcases wrapLow_lt L (-(L / 2)) (wrapHigh L (L / 2) p img).1
      (wrapHigh L (L / 2) p img).2 with h | h
    · linarith
    · rw [h]
      exact wrapHigh_le L (L / 2) p img hL

/-- A coordinate already inside the closed interval — including one
sitting exactly on the boundary — is left untouched, with its image. -/
theorem wrapAxis_id (L p : ℚ) (img : ℤ) (h1 : -(L / 2) ≤ p) (h2 : p ≤ L / 2) :
    wrapAxis L p img = (p, img) := by
  unfold wrapAxis
  rw [wrapHigh_id L (L / 2) p img (by rintro ⟨_, hc⟩; linarith)]
  exact wrapLow_id L (-(L / 2)) p img (by rintro ⟨_, hc⟩; linarith)

/-- Wrapping one axis twice equals wrapping it once. -/
theorem wrapAxis_idem (L p : ℚ) (img : ℤ) :
    wrapAxis L (wrapAxis L p img).1 (wrapAxis L p img).2 = wrapAxis L p img := by
  by_cases hL : 0 < L
  · have hb := wrapAxis_bound L p img hL
    exact wrapAxis_id L _ _ hb.1 hb.2
  · have hfix : wrapAxis L p img = (p, img) := by
      unfold wrapAxis
      rw [wrapHigh_id L (L / 2) p img (by rintro ⟨hc, _⟩; exact hL hc)]
      exact wrapLow_id L (-(L / 2)) p img (by rintro ⟨hc, _⟩; exact hL hc)
    rw [hfix]
    exact hfix

theorem parseQ3_renderQ3 (v : Vec3 ℚ) : parseQ3 (renderQ3 v) = .ok v := rfl

theorem parseZ3_renderZ3 (v : Vec3 ℤ) : parseZ3 (renderZ3 v) = .ok v := by
  simp [parseZ3, renderZ3, pyInt, Rat.den_intCast, Rat.num_intCast]

theorem mapM_parseQ3_render (l : List (Vec3 ℚ)) :
    (l.map renderQ3).mapM parseQ3 = .ok l := by
  induction l with
  | nil => rfl
  | cons hd tl ih =>
    have ih' : List.mapM.loop parseQ3 (List.map renderQ3 tl) [] = Except.ok tl := ih
    rw [List.map_cons, List.mapM_cons, parseQ3_renderQ3]
    simp [ih']

theorem mapM_parseZ3_render (l : List (Vec3 ℤ)) :
    (l.map renderZ3).mapM parseZ3 = .ok l := by
  induction l with
  | nil => rfl
  | cons hd tl ih =>
    have ih' : List.mapM.loop parseZ3 (List.map renderZ3 tl) [] = Except.ok tl := ih
    rw [List.map_cons, List.mapM_cons, parseZ3_renderZ3]
    simp [ih']

theorem wrap3_recon (dims : Box) (p : Vec3 ℚ) (i : Vec3 ℤ) :
    reconOne dims (wrap3 dims p i).1 (wrap3 dims p i).2 = reconOne dims p i := by
  have hx := wrapAxis_inv dims.lx p.x i.x
  have hy := wrapAxis_inv dims.ly p.y i.y
  have hz := wrapAxis_inv dims.lz p.z i.z
  unfold reconOne wrap3
  simp only [Vec3.mk.injEq]
  refine ⟨by linear_combination hx, by linear_combination hy, by linear_combination hz⟩

theorem wrap3_idem (dims : Box) (p : Vec3 ℚ) (i : Vec3 ℤ) :
    wrap3 dims (wrap3 dims p i).1 (wrap3 dims p i).2 = wrap3 dims p i := by
  unfold wrap3
  simp only
  rw [wrapAxis_idem, wrapAxis_idem, wrapAxis_idem]

theorem wrap3_bound (dims : Box) (p : Vec3 ℚ) (i : Vec3 ℤ)
    (hx : 0 < dims.lx) (hy : 0 < dims.ly) (hz : 0 < dims.lz) :
    -(dims.lx / 2) ≤ (wrap3 dims p i).1.x ∧ (wrap3 dims p i).1.x ≤ dims.lx / 2 ∧
    -(dims.ly / 2) ≤ (wrap3 dims p i).1.y ∧ (wrap3 dims p i).1.y ≤ dims.ly / 2 ∧
    -(dims.lz / 2) ≤ (wrap3 dims p i).1.z ∧ (wrap3 dims p i).1.z ≤ dims.lz / 2 := by
  have bx := wrapAxis_bound dims.lx p.x i.x hx
  have by' := wrapAxis_bound dims.ly p.y i.y hy
  have bz := wrapAxis_bound dims.lz p.z i.z hz
  unfold wrap3
  exact ⟨bx.1, bx.2, by'.1, by'.2, bz.1, bz.2⟩

theorem wrapPairs_mem (dims : Box) (ps : List (Vec3 ℚ)) (is : List (Vec3 ℤ))
    (pr : List (Vec3 ℚ) × List (Vec3 ℤ))
    (h : wrapPairs dims ps is = .ok pr) :
    ∀ v ∈ pr.1, ∃ p i, (wrap3 dims p i).1 = v := by
  induction ps generalizing is pr with
  | nil =>
    simp only [wrapPairs] at h
    cases h
    simp
  | cons p ps ih =>
    cases is with
    | nil => simp only [wrapPairs] at h; cases h
    | cons i is =>
      simp only [wrapPairs] at h
      cases hrec : wrapPairs dims ps is with
      | error e => rw [hrec] at h; cases h
      | ok rest =>
        rw [hrec] at h
        simp only [exBind_ok, exPure] at h
        cases h
        intro v hv
        rcases List.mem_cons.mp hv with hv | hv
        · exact ⟨p, i, hv.symm⟩
        · exact ih is rest hrec v hv

theorem wrapPairs_recon (dims : Box) (ps : List (Vec3 ℚ)) (is : List (Vec3 ℤ))
    (pr : List (Vec3 ℚ) × List (Vec3 ℤ))
    (h : wrapPairs dims ps is = .ok pr) :
    List.zipWith (reconOne dims) pr.1 pr.2 = List.zipWith (reconOne dims) ps is := by
  induction ps generalizing is pr with
  | nil =>
    simp only [wrapPairs] at h
    cases h
    simp
  | cons p ps ih =>
    cases is with
    | nil => simp only [wrapPairs] at h; cases h
    | cons i is =>
      simp only [wrapPairs] at h
      cases hrec : wrapPairs dims ps is with
      | error e => rw [hrec] at h; cases h
      | ok rest =>
        rw [hrec] at h
        simp only [exBind_ok, exPure] at h
        cases h
        simp only [List.zipWith_cons_cons]
        rw [wrap3_recon, ih is rest hrec]

theorem wrapPairs_idem (dims : Box) (ps : List (Vec3 ℚ)) (is : List (Vec3 ℤ))
    (pr : List (Vec3 ℚ) × List (Vec3 ℤ))
    (h : wrapPairs dims ps is = .ok pr) :
    wrapPairs dims pr.1 pr.2 = .ok pr := by
  induction ps generalizing is pr with
  | nil =>
    simp only [wrapPairs] at h
    cases h
    simp [wrapPairs]
  | cons p ps ih =>
    cases is with
    | nil => simp only [wrapPairs] at h; cases h
    | cons i is =>
      simp only [wrapPairs] at h
      cases hrec : wrapPairs dims ps is with
      | error e => rw [hrec] at h; cases h
      | ok rest =>
        rw [hrec] at h
        simp only [exBind_ok, exPure] at h
        cases h
        simp only [wrapPairs]
        rw [ih is rest hrec]
        simp only [exBind_ok, exPure]
        rw [wrap3_idem]

/-! ### Section access through `setText` -/

theorem lookup_setText_self (m : Morph) (tag : String) (rows : List (List Tok)) :
    ∃ a, (m.setText tag rows).children.lookup tag = some ⟨a, rows⟩ := by
  unfold Morph.setText
  cases h : m.children.lookup tag with
  | some s => exact ⟨s.attrib, lookup_odSet_self _ _ _⟩
  | none => exact ⟨[], lookup_odSet_self _ _ _⟩

theorem lookup_setText_ne (m : Morph) (tag tag' : String) (rows : List (List Tok))
    (h : tag' ≠ tag) :
    (m.setText tag rows).children.lookup tag' = m.children.lookup tag' := by
  unfold Morph.setText
  cases hl : m.children.lookup tag <;> simp only <;>
    exact lookup_odSet_ne _ _ _ _ h

theorem getText_setText_self (m : Morph) (tag : String) (rows : List (List Tok)) :
    (m.setText tag rows).getText tag = .ok rows := by
  obtain ⟨a, ha⟩ := lookup_setText_self m tag rows
  unfold Morph.getText Morph.getSection
  rw [ha]
  rfl

theorem getSection_setText_ne (m : Morph) (tag tag' : String)
    (rows : List (List Tok)) (h : tag' ≠ tag) :
    (m.setText tag rows).getSection tag' = m.getSection tag' := by
  unfold Morph.getSection
  rw [lookup_setText_ne m tag tag' rows h]

theorem getText_setText_ne (m : Morph) (tag tag' : String)
    (rows : List (List Tok)) (h : tag' ≠ tag) :
    (m.setText tag rows).getText tag' = m.getText tag' := by
  unfold Morph.getText
  rw [getSection_setText_ne m tag tag' rows h]

theorem boxDims_setText (m : Morph) (tag : String) (rows : List (List Tok))
    (h : tag ≠ "box") :
    boxDims (m.setText tag rows) = boxDims m := by
  unfold boxDims Morph.getAttrib
  rw [getSection_setText_ne m tag "box" rows (Ne.symm h)]

theorem setText_text_eq (m : Morph) (tag : String) (s : Section)
    (h : m.children.lookup tag = some s) :
    m.setText tag s.text = m := by
  unfold Morph.setText
  rw [h]
  simp only
  rw [show (⟨s.attrib, s.text⟩ : Section) = s from rfl]
  rw [odSet_lookup_eq _ _ _ h]

/-! ### Decomposition of a successful wrap pass -/

theorem cwp_ok_elim {m m' : Morph} (h : check_wrapped_positions m = .ok m') :
    ∃ dims posRows imgRows ps is pr,
      boxDims m = .ok dims ∧
      m.getText "position" = .ok posRows ∧
      m.getText "image" = .ok imgRows ∧
      posRows.mapM parseQ3 = .ok ps ∧
      imgRows.mapM parseZ3 = .ok is ∧
      wrapPairs dims ps is = .ok pr ∧
      m' = (m.setText "position" (pr.1.map renderQ3)).setText "image"
        (pr.2.map renderZ3) := by
  unfold check_wrapped_positions at h
  cases h1 : boxDims m with
  | error e => rw [h1] at h; cases h
  | ok dims =>
  rw [h1] at h
  simp only [exBind_ok] at h
  cases h2 : m.getText "position" with
  | error e => rw [h2] at h; cases h
  | ok posRows =>
  rw [h2] at h
  simp only [exBind_ok] at h
  cases h3 : m.getText "image" with
  | error e => rw [h3] at h; cases h
  | ok imgRows =>
  rw [h3] at h
  simp only [exBind_ok] at h
  cases h4 : posRows.mapM parseQ3 with
  | error e => rw [h4] at h; cases h
  | ok ps =>
  rw [h4] at h
  simp only [exBind_ok] at h
  cases h5 : imgRows.mapM parseZ3 with
  | error e => rw [h5] at h; cases h
  | ok is =>
  rw [h5] at h
  simp only [exBind_ok] at h
  cases h6 : wrapPairs dims ps is with
  | error e => rw [h6] at h; cases h
  | ok pr =>
  rw [h6] at h
  simp only [exBind_ok, exPure, Except.ok.injEq] at h
  exact ⟨dims, posRows, imgRows, ps, is, pr, rfl, rfl, rfl, h4, h5, h6, h.symm⟩

theorem cwp_ok_out_posVecs {m m' : Morph} (h : check_wrapped_positions m = .ok m') :
    ∃ dims ps is pr,
      boxDims m' = .ok dims ∧ boxDims m = .ok dims ∧
      posVecs m' = .ok pr.1 ∧ imgVecs m' = .ok pr.2 ∧
      posVecs m = .ok ps ∧ imgVecs m = .ok is ∧
      wrapPairs dims ps is = .ok pr := by
  obtain ⟨dims, posRows, imgRows, ps, is, pr, h1, h2, h3, h4, h5, h6, h7⟩ :=
    cwp_ok_elim h
  refine ⟨dims, ps, is, pr, ?_, h1, ?_, ?_, ?_, ?_, h6⟩
  · rw [h7, boxDims_setText _ _ _ (by decide), boxDims_setText _ _ _ (by decide), h1]
  · rw [h7]
    unfold posVecs
    rw [getText_setText_ne _ _ _ _ (by decide), getText_setText_self]
    simp only [exBind_ok]
    exact mapM_parseQ3_render pr.1
  · rw [h7]
    unfold imgVecs
    rw [getText_setText_self]
    simp only [exBind_ok]
    exact mapM_parseZ3_render pr.2
  · unfold posVecs
    rw [h2]
    simp only [exBind_ok]
    exact h4
  · unfold imgVecs
    rw [h3]
    simp only [exBind_ok]
    exact h5

/-! ### Claim C5: wrap bound -/

/-- C5: after the Image Wrapper runs (`check_wrapped_positions`
succeeds) on a box with positive edge lengths, every particle's wrapped
coordinate lies in the closed interval `[-L/2, +L/2]` on every axis;
and a coordinate sitting exactly on either boundary of a positive box is
accepted unchanged, not forced strictly inside. -/
theorem c5_wrap_bound (m m' : Morph) (dims : Box) (vs : List (Vec3 ℚ))
    (hrun : check_wrapped_positions m = .ok m')
    (hbox : boxDims m = .ok dims)
    (hx : 0 < dims.lx) (hy : 0 < dims.ly) (hz : 0 < dims.lz)
    (hvs : posVecs m' = .ok vs) :
    (∀ v ∈ vs,
      -(dims.lx / 2) ≤ v.x ∧ v.x ≤ dims.lx / 2 ∧
      -(dims.ly / 2) ≤ v.y ∧ v.y ≤ dims.ly / 2 ∧
      -(dims.lz / 2) ≤ v.z ∧ v.z ≤ dims.lz / 2) ∧
    (∀ (L : ℚ) (img : ℤ), 0 < L →
      wrapAxis L (L / 2) img = (L / 2, img) ∧
      wrapAxis L (-(L / 2)) img = (-(L / 2), img)) := by
  constructor
  · obtain ⟨d0, ps, is, pr, hb0, hb, hp0, hi0, hp, hi, hw⟩ := cwp_ok_out_posVecs hrun
    rw [hbox] at hb
    cases hb
    rw [hvs] at hp0
    cases hp0
    intro v hv
    obtain ⟨p, i, hpi⟩ := wrapPairs_mem dims ps is pr hw v hv
    rw [← hpi]
    have hbnd := wrap3_bound dims p i hx hy hz
    exact ⟨hbnd.1, hbnd.2.1, hbnd.2.2.1, hbnd.2.2.2.1, hbnd.2.2.2.2.1,
      hbnd.2.2.2.2.2⟩
  · intro L img hL
    constructor
    · exact wrapAxis_id L (L / 2) img (by linarith) le_rfl
    · exact wrapAxis_id L (-(L / 2)) img le_rfl (by linarith)

/-- Witness for C5: the two-particle example, whose serialization-time
wrap leaves both positions inside `[-5, 5]`. -/
theorem c5_wrap_bound_witness :
    (∀ v ∈ ([⟨4.9, 0, 0⟩, ⟨-4.9, 0, 0⟩] : List (Vec3 ℚ)),
      -(box10.lx / 2) ≤ v.x ∧ v.x ≤ box10.lx / 2 ∧
      -(box10.ly / 2) ≤ v.y ∧ v.y ≤ box10.ly / 2 ∧
      -(box10.lz / 2) ≤ v.z ∧ v.z ≤ box10.lz / 2) ∧
    (∀ (L : ℚ) (img : ℤ), 0 < L →
      wrapAxis L (L / 2) img = (L / 2, img) ∧
      wrapAxis L (-(L / 2)) img = (-(L / 2), img)) :=
  c5_wrap_bound pairM pairM box10 [⟨4.9, 0, 0⟩, ⟨-4.9, 0, 0⟩]
    (by decide) (by decide) (by decide) (by decide) (by decide) (by decide)

/-! ### Claim C8: the wrap preserves reconstructed true positions -/

/-- C8: whenever the Image Wrapper succeeds, every particle's
reconstructed true position `wrapped_position + image * L` after the
pass equals the value of `position + image * L` it had immediately
before the pass. -/
theorem c8_recon_invariant (m m' : Morph)
    (hrun : check_wrapped_positions m = .ok m') :
    reconPositions m' = reconPositions m := by
  obtain ⟨dims, ps, is, pr, hb0, hb, hp0, hi0, hp, hi, hw⟩ :=
    cwp_ok_out_posVecs hrun
  unfold reconPositions
  rw [hb, hb0, hp, hp0, hi, hi0]
  simp only [exBind_ok, exPure]
  rw [wrapPairs_recon dims ps is pr hw]

/-- Witness for C8: the particle at `(7, 0, 0)` is wrapped to
`(-3, 0, 0)` with image `(1, 0, 0)`, and the reconstruction is
unchanged. -/
theorem c8_recon_invariant_witness :
    check_wrapped_positions unwrappedM = .ok unwrappedMWrapped ∧
    reconPositions unwrappedMWrapped = reconPositions unwrappedM :=
  ⟨by decide, c8_recon_invariant unwrappedM unwrappedMWrapped (by decide)⟩

/-! ### Claim C10: wrap idempotence -/

/-- C10: applying the Image Wrapper twice in a row produces exactly the
output of applying it once — the second `check_wrapped_positions` run
returns its input unchanged, position and image tokens included. -/
theorem c10_wrap_idempotent (m m' : Morph)
    (hrun : check_wrapped_positions m = .ok m') :
    check_wrapped_positions m' = .ok m' := by
  obtain ⟨dims, posRows, imgRows, ps, is, pr, h1, h2, h3, h4, h5, h6, h7⟩ :=
    cwp_ok_elim hrun
  obtain ⟨a1, ha1⟩ := lookup_setText_self m "position" (pr.1.map renderQ3)
  have ha1r : ((m.setText "position" (pr.1.map renderQ3)).setText "image"
      (pr.2.map renderZ3)).children.lookup "position" =
      some ⟨a1, pr.1.map renderQ3⟩ := by
    rw [lookup_setText_ne _ _ _ _ (by decide)]
    exact ha1
  obtain ⟨a2, ha2⟩ := lookup_setText_self (m.setText "position" (pr.1.map renderQ3))
    "image" (pr.2.map renderZ3)
  unfold check_wrapped_positions
  rw [h7]
  rw [boxDims_setText _ _ _ (by decide), boxDims_setText _ _ _ (by decide), h1]
  simp only [exBind_ok]
  rw [getText_setText_ne _ _ _ _ (by decide), getText_setText_self]
  simp only [exBind_ok]
  rw [getText_setText_self]
  simp only [exBind_ok]
  rw [show (pr.1.map renderQ3).mapM parseQ3 = Except.ok pr.1 from
    mapM_parseQ3_render pr.1]
  simp only [exBind_ok]
  rw [show (pr.2.map renderZ3).mapM parseZ3 = Except.ok pr.2 from
    mapM_parseZ3_render pr.2]
  simp only [exBind_ok]
  rw [wrapPairs_idem dims ps is pr h6]
  simp only [exBind_ok, exPure, Except.ok.injEq]
  rw [show ((m.setText "position" (pr.1.map renderQ3)).setText "image"
      (pr.2.map renderZ3)).setText "position" (pr.1.map renderQ3) =
      (m.setText "position" (pr.1.map renderQ3)).setText "image"
      (pr.2.map renderZ3) from
    setText_text_eq _ _ ⟨a1, pr.1.map renderQ3⟩ ha1r]
  exact setText_text_eq _ _ ⟨a2, pr.2.map renderZ3⟩ ha2

/-- Witness for C10: the single out-of-range particle, wrapped once,
is a fixed point of the wrapper. -/
theorem c10_wrap_idempotent_witness :
    check_wrapped_positions unwrappedM = .ok unwrappedMWrapped ∧
    check_wrapped_positions unwrappedMWrapped = .ok unwrappedMWrapped :=
  ⟨by decide, c10_wrap_idempotent unwrappedM unwrappedMWrapped (by decide)⟩

/-! ### The integer-keyed bond dict and the string-token lookup -/

theorem dictGet_tok (bd : BondDict) (t : Tok) (h : intKeyed bd = true) :
    dictGet bd (.tok t) = .error .key := by
  induction bd with
  | nil => rfl
  | cons hd tl ih =>
    simp only [intKeyed, List.all_cons, Bool.and_eq_true] at h
    rcases hd with ⟨k, v⟩
    cases k with
    | int n =>
      unfold dictGet at ih ⊢
      simp only [List.lookup]
      have : (PyKey.tok t == PyKey.int n) = false := rfl
      rw [this]
      exact ih h.2
    | tok t0 => simp at h

theorem intKeyed_odSet (bd : BondDict) (n : ℤ) (v : List ℤ)
    (h : intKeyed bd = true) : intKeyed (odSet bd (.int n) v) = true := by
  induction bd with
  | nil => rfl
  | cons hd tl ih =>
    simp only [intKeyed, List.all_cons, Bool.and_eq_true] at h
    by_cases hk : hd.1 = PyKey.int n
    · simp [odSet, hk, intKeyed, h.2]
    · simp only [odSet, if_neg hk, intKeyed, List.all_cons, Bool.and_eq_true]
      exact ⟨h.1, ih h.2⟩

theorem bondDictStep_intKeyed (bd bd' : BondDict) (bond : List Tok)
    (h : intKeyed bd = true) (hs : bondDictStep bd bond = .ok bd') :
    intKeyed bd' = true := by
  unfold bondDictStep at hs
  cases h1 : tokAt bond 1 with
  | error e => rw [h1] at hs; cases hs
  | ok t1 =>
  rw [h1] at hs
  simp only [exBind_ok] at hs
  cases h2 : pyInt t1 with
  | error e => rw [h2] at hs; cases hs
  | ok i1 =>
  rw [h2] at hs
  simp only [exBind_ok] at hs
  cases h3 : dictGet bd (.int i1) with
  | error e => rw [h3] at hs; cases hs
  | ok l1 =>
  rw [h3] at hs
  simp only [exBind_ok] at hs
  cases h4 : tokAt bond 2 with
  | error e => rw [h4] at hs; cases hs
  | ok t2 =>
  rw [h4] at hs
  simp only [exBind_ok] at hs
  cases h5 : pyInt t2 with
  | error e => rw [h5] at hs; cases hs
  | ok i2 =>
  rw [h5] at hs
  simp only [exBind_ok] at hs
  cases h6 : dictGet (odSet bd (.int i1) (l1 ++ [i2])) (.int i2) with
  | error e => rw [h6] at hs; cases hs
  | ok l2 =>
  rw [h6] at hs
  simp only [exBind_ok, exPure, Except.ok.injEq] at hs
  rw [← hs]
  exact intKeyed_odSet _ _ _ (intKeyed_odSet _ _ _ h)

theorem foldlM_bondDictStep_intKeyed (bonds : List (List Tok)) :
    ∀ (bd0 : BondDict), intKeyed bd0 = true →
      ∀ bd, bonds.foldlM bondDictStep bd0 = .ok bd → intKeyed bd = true := by
  induction bonds with
  | nil =>
    intro bd0 h0 bd hf
    simp only [List.foldlM_nil, exPure, Except.ok.injEq] at hf
    rw [← hf]
    exact h0
  | cons bond rest ih =>
    intro bd0 h0 bd hf
    rw [List.foldlM_cons] at hf
    cases hstep : bondDictStep bd0 bond with
    | error e => rw [hstep] at hf; cases hf
    | ok bd1 =>
      rw [hstep] at hf
      simp only [exBind_ok] at hf
      exact ih bd1 (bondDictStep_intKeyed bd0 bd1 bond h0 hstep) bd hf

theorem get_bond_dict_intKeyed (m : Morph) (bd : BondDict)
    (h : get_bond_dict m = .ok bd) : intKeyed bd = true := by
  unfold get_bond_dict at h
  cases h1 : m.getText "type" with
  | error e => rw [h1] at h; cases h
  | ok types =>
  rw [h1] at h
  simp only [exBind_ok] at h
  cases h2 : m.getText "bond" with
  | error e => rw [h2] at h; cases h
  | ok bonds =>
  rw [h2] at h
  simp only [exBind_ok] at h
  refine foldlM_bondDictStep_intKeyed bonds _ ?_ bd h
  simp only [intKeyed, List.all_eq_true]
  intro p hp
  rcases List.mem_map.mp hp with ⟨i, _, rfl⟩
  rfl

theorem move_tok_key (fuel : ℕ) (bd : BondDict) (dims : Box) (t : Tok) (m : Morph)
    (hk : intKeyed bd = true) (hf : 1 ≤ fuel) :
    move_bonded_atoms fuel bd dims (.tok t) m = .error .key := by
  cases fuel with
  | zero => omega
  | succ n =>
    rw [move_bonded_atoms_succ, dictGet_tok bd t hk]

theorem move_tok_errors (fuel : ℕ) (bd : BondDict) (dims : Box) (t : Tok) (m : Morph)
    (hk : intKeyed bd = true) :
    ∃ e, move_bonded_atoms fuel bd dims (.tok t) m = .error e := by
  cases fuel with
  | zero => exact ⟨.fuel, rfl⟩
  | succ n => exact ⟨.key, move_tok_key _ bd dims t m hk (by omega)⟩

theorem bondOutOfRange_tokAt {m : Morph} {dims : Box} {bond : List Tok} {r : Bool}
    (h : bondOutOfRange m dims bond = .ok r) : ∃ t, tokAt bond 1 = .ok t := by
  unfold bondOutOfRange at h
  cases h1 : tokAt bond 1 with
  | error e => rw [h1] at h; cases h
  | ok t => exact ⟨t, rfl⟩

theorem checkBondsLoop_ok (fuel : ℕ) (bd : BondDict) (dims : Box)
    (hk : intKeyed bd = true) :
    ∀ (bonds : List (List Tok)) (m m' : Morph),
      checkBondsLoop fuel bd dims bonds m = .ok m' → m' = m := by
  intro bonds
  induction bonds with
  | nil =>
    intro m m' h
    simp only [checkBondsLoop, Except.ok.injEq] at h
    exact h.symm
  | cons bond rest ih =>
    intro m m' h
    simp only [checkBondsLoop] at h
    cases hb : bondOutOfRange m dims bond with
    | error e => rw [hb] at h; cases h
    | ok flag =>
      rw [hb] at h
      simp only [exBind_ok] at h
      cases flag with
      | false =>
        simp only [Bool.false_eq_true, if_neg] at h
        exact ih m m' h
      | true =>
        simp only [if_pos] at h
        obtain ⟨t1, ht1⟩ := bondOutOfRange_tokAt hb
        rw [ht1] at h
        simp only [exBind_ok] at h
        obtain ⟨e, he⟩ := move_tok_errors fuel bd dims t1 m hk
        rw [he] at h
        cases h

theorem checkBondsLoop_flagged (fuel : ℕ) (bd : BondDict) (dims : Box)
    (hk : intKeyed bd = true) :
    ∀ (bonds : List (List Tok)) (m : Morph),
      (∃ bond ∈ bonds, bondOutOfRange m dims bond = .ok true) →
      ∃ e, checkBondsLoop fuel bd dims bonds m = .error e := by
  intro bonds
  induction bonds with
  | nil =>
    intro m hex
    simp at hex
  | cons bond rest ih =>
    intro m hex
    simp only [checkBondsLoop]
    cases hb : bondOutOfRange m dims bond with
    | error e => exact ⟨e, by simp only [exBind_error]⟩
    | ok flag =>
      simp only [exBind_ok]
      cases flag with
      | true =>
        simp only [if_pos]
        obtain ⟨t1, ht1⟩ := bondOutOfRange_tokAt hb
        rw [ht1]
        simp only [exBind_ok]
        obtain ⟨e, he⟩ := move_tok_errors fuel bd dims t1 m hk
        rw [he]
        exact ⟨e, by simp only [exBind_error]⟩
      | false =>
        simp only [Bool.false_eq_true, if_neg]
        apply ih
        rcases hex with ⟨b0, hmem, hflag⟩
        rcases List.mem_cons.mp hmem with rfl | hmem0
        · rw [hb] at hflag
          cases hflag
        · exact ⟨b0, hmem0, hflag⟩

/-! ### Claim C3: the relocation entry point never mutates -/

/-- C3: with the integer-keyed adjacency dict that `get_bond_dict`
builds, (a) a successful `check_bonds` run returns the morphology
unchanged — the relocation step never changes any particle position on
any input; (b) whenever the scan flags at least one bond the run raises
an error instead; and (c) the mechanism: `move_bonded_atoms` called
with a bond's raw string token — as `check_bonds` does — fails its very
first adjacency lookup with a `KeyError`. -/
theorem c3_relocation_never_mutates (fuel : ℕ) (bd : BondDict) (dims : Box)
    (m : Morph) (hk : intKeyed bd = true) :
    (∀ m', check_bonds fuel bd dims m = .ok m' → m' = m) ∧
    ((∃ bonds, m.getText "bond" = .ok bonds ∧
        ∃ bond ∈ bonds, bondOutOfRange m dims bond = .ok true) →
      ∃ e, check_bonds fuel bd dims m = .error e) ∧
    (1 ≤ fuel → ∀ (t : Tok) (m0 : Morph),
      move_bonded_atoms fuel bd dims (.tok t) m0 = .error .key) := by
  refine ⟨?_, ?_, fun hf t m0 => move_tok_key fuel bd dims t m0 hk hf⟩
  · intro m' h
    unfold check_bonds at h
    cases hb : m.getText "bond" with
    | error e => rw [hb] at h; cases h
    | ok bonds =>
      rw [hb] at h
      simp only [exBind_ok] at h
      exact checkBondsLoop_ok fuel bd dims hk bonds m m' h
  · rintro ⟨bonds, hbonds, hex⟩
    unfold check_bonds
    rw [hbonds]
    simp only [exBind_ok]
    exact checkBondsLoop_flagged fuel bd dims hk bonds m hex

/-- Witness for C3 at the spec's end-to-end pair: the scan flags the
bond, `check_bonds` raises, and a hypothetical successful run could only
have returned `pairM` itself. -/
theorem c3_relocation_never_mutates_witness :
    (∀ m', check_bonds 5 pairBd box10 pairM = .ok m' → m' = pairM) ∧
    (∃ e, check_bonds 5 pairBd box10 pairM = .error e) ∧
    move_bonded_atoms 5 pairBd box10 (.tok (.num 0)) pairM = .error .key := by
  have h := c3_relocation_never_mutates 5 pairBd box10 pairM (by decide)
  exact ⟨h.1,
    h.2.1 ⟨[[.raw "polymer", .num 0, .num 1]], by decide,
      [.raw "polymer", .num 0, .num 1], by decide, by decide⟩,
    h.2.2 (by omega) (.num 0) pairM⟩

/-! ### Claim C7: the relocator mutates only position text -/

theorem OPTD_refl (m : Morph) : OnlyPosTextDiffer m m := by
  refine ⟨rfl, rfl, rfl, rfl, rfl, rfl, ?_⟩
  rw [List.forall₂_same]
  intro p _
  exact ⟨rfl, rfl, fun _ => rfl⟩

theorem forall2_sec_trans : ∀ {l1 l2 l3 : List (String × Section)},
    List.Forall₂ (fun (p q : String × Section) =>
      p.1 = q.1 ∧ p.2.attrib = q.2.attrib ∧
      (p.1 ≠ "position" → p.2.text = q.2.text)) l1 l2 →
    List.Forall₂ (fun (p q : String × Section) =>
      p.1 = q.1 ∧ p.2.attrib = q.2.attrib ∧
      (p.1 ≠ "position" → p.2.text = q.2.text)) l2 l3 →
    List.Forall₂ (fun (p q : String × Section) =>
      p.1 = q.1 ∧ p.2.attrib = q.2.attrib ∧
      (p.1 ≠ "position" → p.2.text = q.2.text)) l1 l3 := by
  intro l1 l2 l3 h1
  induction h1 generalizing l3 with
  | nil =>
    intro h2
    cases h2
    exact List.Forall₂.nil
  | cons hpq hrest ih =>
    intro h2
    cases h2 with
    | cons hqr hgrest =>
      refine List.Forall₂.cons
        ⟨hpq.1.trans hqr.1, hpq.2.1.trans hqr.2.1, ?_⟩ (ih hgrest)
      intro hne
      exact (hpq.2.2 hne).trans (hqr.2.2 (hpq.1 ▸ hne))

theorem OPTD_trans {m1 m2 m3 : Morph} (h1 : OnlyPosTextDiffer m1 m2)
    (h2 : OnlyPosTextDiffer m2 m3) : OnlyPosTextDiffer m1 m3 := by
  obtain ⟨a1, a2, a3, a4, a5, a6, hf⟩ := h1
  obtain ⟨b1, b2, b3, b4, b5, b6, hg⟩ := h2
  exact ⟨b1.trans a1, b2.trans a2, b3.trans a3, b4.trans a4, b5.trans a5,
    b6.trans a6, forall2_sec_trans hf hg⟩

theorem forall2_odSet_pos (children : List (String × Section)) (s : Section)
    (t : List (List Tok)) (hl : children.lookup "position" = some s) :
    List.Forall₂ (fun (p q : String × Section) =>
      p.1 = q.1 ∧ p.2.attrib = q.2.attrib ∧ (p.1 ≠ "position" → p.2.text = q.2.text))
      children (odSet children "position" ⟨s.attrib, t⟩) := by
  induction children with
  | nil => cases hl
  | cons hd tl ih =>
    rcases hd with ⟨k, sec⟩
    by_cases hk : k = "position"
    · subst hk
      simp only [List.lookup, beq_self_eq_true, Option.some.injEq] at hl
      subst hl
      simp only [odSet, if_pos rfl]
      refine List.Forall₂.cons ⟨rfl, rfl, fun hne => absurd rfl hne⟩ ?_
      rw [List.forall₂_same]
      intro p _
      exact ⟨rfl, rfl, fun _ => rfl⟩
    · have hne : ("position" == k) = false := by
        simp only [beq_eq_false_iff_ne, ne_eq]
        exact fun e => hk e.symm
      simp only [List.lookup, hne] at hl
      simp only [odSet, if_neg hk]
      exact List.Forall₂.cons ⟨rfl, rfl, fun _ => rfl⟩ (ih hl)

theorem updPos_OPTD (m : Morph) (b : ℤ) (axis : ℕ) (v : ℚ) :
    OnlyPosTextDiffer m (updPos m b axis v) := by
  unfold updPos
  cases hl : m.children.lookup "position" with
  | none => exact OPTD_refl m
  | some s =>
    by_cases hb : b < 0
    · simp only [if_pos hb]
      exact OPTD_refl m
    · simp only [if_neg hb]
      cases hrow : s.text.get? b.toNat with
      | none => exact OPTD_refl m
      | some row =>
        exact ⟨rfl, rfl, rfl, rfl, rfl, rfl, forall2_odSet_pos m.children s _ hl⟩

theorem correctAxes_OPTD (dims : Box) (b : ℤ) :
    ∀ (axis : ℕ) (pairs : List (ℚ × ℚ)) (m : Morph) (moved : Bool)
      (out : Morph × Bool),
      correctAxes dims b axis pairs m moved = .ok out →
      OnlyPosTextDiffer m out.1 := by
  intro axis pairs
  induction pairs generalizing axis with
  | nil =>
    intro m moved out h
    simp only [correctAxes, Except.ok.injEq] at h
    rw [← h]
    exact OPTD_refl m
  | cons pr rest ih =>
    intro m moved out h
    rcases pr with ⟨d, p2⟩
    simp only [correctAxes] at h
    cases hL : dims.getAxis axis with
    | error e => rw [hL] at h; cases h
    | ok L =>
      rw [hL] at h
      simp only [exBind_ok] at h
      have step1 : OnlyPosTextDiffer m
          (if L / 2 < d then (updPos m b axis (p2 + L), true) else (m, moved)).1 := by
        by_cases hc : L / 2 < d
        · simp only [if_pos hc]
          exact updPos_OPTD m b axis (p2 + L)
        · simp only [if_neg hc]
          exact OPTD_refl m
      have step2 : OnlyPosTextDiffer
          (if L / 2 < d then (updPos m b axis (p2 + L), true) else (m, moved)).1
          (if d < -(L / 2) then
            (updPos (if L / 2 < d then (updPos m b axis (p2 + L), true)
              else (m, moved)).1 b axis (p2 - L), true)
           else (if L / 2 < d then (updPos m b axis (p2 + L), true)
              else (m, moved))).1 := by
        by_cases hc : d < -(L / 2)
        · simp only [if_pos hc]
          exact updPos_OPTD _ b axis (p2 - L)
        · simp only [if_neg hc]
          exact OPTD_refl _
      exact OPTD_trans (OPTD_trans step1 step2) (ih (axis + 1) _ _ out h)

theorem correctNeighbor_OPTD (dims : Box) (m : Morph) (c : PyKey) (b : ℤ)
    (out : Morph × Bool) (h : correctNeighbor dims m c b = .ok out) :
    OnlyPosTextDiffer m out.1 := by
  unfold correctNeighbor at h
  cases h1 : posRowOfKey m c with
  | error e => rw [h1] at h; cases h
  | ok posn1 =>
  rw [h1] at h
  simp only [exBind_ok] at h
  cases h2 : posRowQ m b with
  | error e => rw [h2] at h; cases h
  | ok posn2 =>
  rw [h2] at h
  simp only [exBind_ok] at h
  by_cases hlen : posn1.length = posn2.length
  · rw [if_pos hlen] at h
    exact correctAxes_OPTD dims b 0 _ m false out h
  · rw [if_neg hlen] at h
    cases h

theorem move_bonded_atoms_ok_nbrs (fuel : ℕ) (bd : BondDict) (dims : Box)
    (c : PyKey) (m : Morph) (nbrs : List ℤ) (hd : dictGet bd c = .ok nbrs) :
    move_bonded_atoms (fuel + 1) bd dims c m =
      nbrs.foldlM (moveStep fuel bd dims c) m := by
  rw [move_bonded_atoms_succ, hd]

theorem move_bonded_atoms_err_key (fuel : ℕ) (bd : BondDict) (dims : Box)
    (c : PyKey) (m : Morph) (e : Err) (hd : dictGet bd c = .error e) :
    move_bonded_atoms (fuel + 1) bd dims c m = .error e := by
  rw [move_bonded_atoms_succ, hd]

theorem move_OPTD : ∀ (fuel : ℕ) (bd : BondDict) (dims : Box) (c : PyKey)
    (m m' : Morph), move_bonded_atoms fuel bd dims c m = .ok m' →
    OnlyPosTextDiffer m m' := by
  intro fuel
  induction fuel with
  | zero => intro bd dims c m m' h; cases h
  | succ fuel ih =>
    intro bd dims c m m' h
    cases hd : dictGet bd c with
    | error e =>
      rw [move_bonded_atoms_err_key fuel bd dims c m e hd] at h
      cases h
    | ok nbrs =>
      rw [move_bonded_atoms_ok_nbrs fuel bd dims c m nbrs hd] at h
      clear hd
      induction nbrs generalizing m with
      | nil =>
        simp only [List.foldlM_nil, exPure, Except.ok.injEq] at h
        rw [← h]
        exact OPTD_refl m
      | cons b rest ihn =>
        rw [List.foldlM_cons] at h
        unfold moveStep at h
        cases hc : correctNeighbor dims m c b with
        | error e => rw [hc] at h; cases h
        | ok r =>
          rw [hc] at h
          simp only [exBind_ok] at h
          have h0 : OnlyPosTextDiffer m r.1 := correctNeighbor_OPTD dims m c b r hc
          by_cases hmv : r.2 = true
          · rw [if_pos hmv] at h
            cases hm2 : move_bonded_atoms fuel bd dims (.int b) r.1 with
            | error e => rw [hm2] at h; cases h
            | ok m2 =>
              rw [hm2] at h
              simp only [exBind_ok] at h
              exact OPTD_trans h0
                (OPTD_trans (ih bd dims (.int b) r.1 m2 hm2) (ihn m2 h))
          · rw [if_neg hmv] at h
            simp only [exPure, exBind_ok] at h
            exact OPTD_trans h0 (ihn r.1 h)

theorem forall2_sec_lookup : ∀ {l l' : List (String × Section)},
    List.Forall₂ (fun (p q : String × Section) =>
      p.1 = q.1 ∧ p.2.attrib = q.2.attrib ∧
      (p.1 ≠ "position" → p.2.text = q.2.text)) l l' →
    ∀ tag : String,
      ((l.lookup tag).map Section.attrib = (l'.lookup tag).map Section.attrib) ∧
      (tag ≠ "position" → l.lookup tag = l'.lookup tag) := by
  intro l l' h
  induction h with
  | nil => intro tag; exact ⟨rfl, fun _ => rfl⟩
  | cons hpq hrest ih =>
    rename_i p q tlp tlq
    intro tag
    by_cases hk : tag = p.1
    · have hbp : (tag == p.1) = true := by simp [hk]
      have hbq : (tag == q.1) = true := by simp [hk, hpq.1]
      constructor
      · simp only [List.lookup, hbp, hbq]
        show some p.2.attrib = some q.2.attrib
        rw [hpq.2.1]
      · intro hne
        simp only [List.lookup, hbp, hbq, Option.some.injEq]
        have htext : p.2.text = q.2.text := hpq.2.2 (by rw [← hk]; exact hne)
        rcases p with ⟨k1, ⟨a1, t1⟩⟩
        rcases q with ⟨k2, ⟨a2, t2⟩⟩
        simp only at htext
        have hattr := hpq.2.1
        simp only at hattr
        rw [hattr, htext]
    · have hbp : (tag == p.1) = false := by
        simp only [beq_eq_false_iff_ne, ne_eq]
        exact hk
      have hbq : (tag == q.1) = false := by
        simp only [beq_eq_false_iff_ne, ne_eq]
        rw [← hpq.1]
        exact hk
      simp only [List.lookup, hbp, hbq]
      exact ih tag

theorem OPTD_getText_ne {m m' : Morph} (h : OnlyPosTextDiffer m m')
    (tag : String) (hne : tag ≠ "position") :
    m'.getText tag = m.getText tag := by
  unfold Morph.getText Morph.getSection
  rw [(forall2_sec_lookup h.2.2.2.2.2.2 tag).2 hne]

theorem OPTD_getAttrib {m m' : Morph} (h : OnlyPosTextDiffer m m')
    (tag : String) : m'.getAttrib tag = m.getAttrib tag := by
  unfold Morph.getAttrib Morph.getSection
  have hmap := (forall2_sec_lookup h.2.2.2.2.2.2 tag).1
  cases hl : m.children.lookup tag with
  | none =>
    cases hl' : m'.children.lookup tag with
    | none => rfl
    | some s' => rw [hl, hl'] at hmap; cases hmap
  | some s =>
    cases hl' : m'.children.lookup tag with
    | none => rw [hl, hl'] at hmap; cases hmap
    | some s' =>
      rw [hl, hl'] at hmap
      have hattr : s.attrib = s'.attrib := Option.some.inj hmap
      show (Except.ok s' : Except Err Section).map Section.attrib =
        (Except.ok s : Except Err Section).map Section.attrib
      rw [exMap_ok, exMap_ok, hattr]

/-- C7: a successful `move_bonded_atoms` run mutates only the text rows
of the `position` section: the root and configuration entries, the
section tags in their order, every section's attributes — the box
attributes included — and the text rows of every other section — the
image offsets included — are exactly what they were before the step. -/
theorem c7_relocator_frame (fuel : ℕ) (bd : BondDict) (dims : Box)
    (c : PyKey) (m m' : Morph)
    (h : move_bonded_atoms fuel bd dims c m = .ok m') :
    OnlyPosTextDiffer m m' ∧
    (∀ tag, tag ≠ "position" → m'.getText tag = m.getText tag) ∧
    (∀ tag, m'.getAttrib tag = m.getAttrib tag) := by
  have h0 := move_OPTD fuel bd dims c m m' h
  exact ⟨h0, fun tag hne => OPTD_getText_ne h0 tag hne,
    fun tag => OPTD_getAttrib h0 tag⟩

/-- Witness for C7: relocating the spec's end-to-end pair moves particle
1 to `(5.1, 0, 0)` and leaves images, box and every other section
untouched. -/
theorem c7_relocator_frame_witness :
    move_bonded_atoms 5 pairBd box10 (.int 0) pairM = .ok pairMoved ∧
    (OnlyPosTextDiffer pairM pairMoved ∧
     (∀ tag, tag ≠ "position" → pairMoved.getText tag = pairM.getText tag) ∧
     (∀ tag, pairMoved.getAttrib tag = pairM.getAttrib tag)) :=
  ⟨by decide,
   c7_relocator_frame 5 pairBd box10 (.int 0) pairM pairMoved (by decide)⟩

/-! ### Claim C6: anchor convention of the per-bond correction -/

theorem listAt_set_ne {α : Type} (xs : List α) (j : ℕ) (x : α) (i : ℤ)
    (h : i < 0 ∨ i.toNat ≠ j) : listAt (xs.set j x) i = listAt xs i := by
  unfold listAt
  by_cases hi : i < 0
  · simp only [if_pos hi]
  · simp only [if_neg hi]
    rcases h with h | h
    · exact absurd h hi
    · rw [List.get?_eq_getElem?, List.get?_eq_getElem?,
        List.getElem?_set_ne (fun e => h e.symm)]

theorem posRowQ_updPos_ne (m : Morph) (b : ℤ) (axis : ℕ) (v : ℚ) (a : ℤ)
    (hne : a ≠ b) : posRowQ (updPos m b axis v) a = posRowQ m a := by
  unfold updPos
  cases hl : m.children.lookup "position" with
  | none => rfl
  | some s =>
    by_cases hb : b < 0
    · simp only [if_pos hb]
    · simp only [if_neg hb]
      cases hrow : s.text.get? b.toNat with
      | none => rfl
      | some row =>
        unfold posRowQ Morph.getText Morph.getSection
        show (match List.lookup "position" (odSet m.children "position"
            ⟨s.attrib, s.text.set b.toNat (row.set axis (Tok.num v))⟩) with
          | some s => Except.ok s
          | none => Except.error Err.key).map Section.text >>=
            (fun rows => listAt rows a >>= fun row => row.mapM pyFloat) = _
        rw [lookup_odSet_self, hl]
        simp only [exMap_ok, exBind_ok]
        rw [listAt_set_ne _ _ _ _ (by omega)]

theorem correctAxes_posRowQ_ne (dims : Box) (b : ℤ) :
    ∀ (axis : ℕ) (pairs : List (ℚ × ℚ)) (m : Morph) (moved : Bool)
      (out : Morph × Bool),
      correctAxes dims b axis pairs m moved = .ok out →
      ∀ a : ℤ, a ≠ b → posRowQ out.1 a = posRowQ m a := by
  intro axis pairs
  induction pairs generalizing axis with
  | nil =>
    intro m moved out h a hne
    simp only [correctAxes, Except.ok.injEq] at h
    rw [← h]
  | cons pr rest ih =>
    intro m moved out h a hne
    rcases pr with ⟨d, p2⟩
    simp only [correctAxes] at h
    cases hL : dims.getAxis axis with
    | error e => rw [hL] at h; cases h
    | ok L =>
      rw [hL] at h
      simp only [exBind_ok] at h
      rw [ih (axis + 1) _ _ out h a hne]
      by_cases h1 : L / 2 < d
      · by_cases h2 : d < -(L / 2)
        · simp only [if_pos h1, if_pos h2]
          rw [posRowQ_updPos_ne _ _ _ _ _ hne, posRowQ_updPos_ne _ _ _ _ _ hne]
        · simp only [if_pos h1, if_neg h2]
          rw [posRowQ_updPos_ne _ _ _ _ _ hne]
      · by_cases h2 : d < -(L / 2)
        · simp only [if_neg h1, if_pos h2]
          rw [posRowQ_updPos_ne _ _ _ _ _ hne]
        · simp only [if_neg h1, if_neg h2]

/-- C6 (amended): `check_bonds` hands the *first* particle index of each
flagged bond record to the relocation routine; there the central atom is
the fixed anchor — its position row is never modified — and, for a
positive box length, each axis of the moved neighbor follows the rule:
coordinate set to `posn2 + L` when the anchor-minus-moved delta exceeds
`L/2`, to `posn2 - L` when it is below `-L/2`, and kept otherwise. -/
theorem c6_anchor_and_axis_rule :
    (∀ (dims : Box) (m : Morph) (a b : ℤ) (out : Morph × Bool),
       a ≠ b → correctNeighbor dims m (.int a) b = .ok out →
       posRowQ out.1 a = posRowQ m a) ∧
    (∀ (dims : Box) (b : ℤ) (axis : ℕ) (d p2 : ℚ) (m : Morph) (moved : Bool)
       (L : ℚ), dims.getAxis axis = .ok L → 0 < L →
       correctAxes dims b axis [(d, p2)] m moved =
         .ok (if L / 2 < d then (updPos m b axis (p2 + L), true)
              else if d < -(L / 2) then (updPos m b axis (p2 - L), true)
              else (m, moved))) := by
  constructor
  · intro dims m a b out hne h
    unfold correctNeighbor at h
    cases h1 : posRowOfKey m (.int a) with
    | error e => rw [h1] at h; cases h
    | ok posn1 =>
    rw [h1] at h
    simp only [exBind_ok] at h
    cases h2 : posRowQ m b with
    | error e => rw [h2] at h; cases h
    | ok posn2 =>
    rw [h2] at h
    simp only [exBind_ok] at h
    by_cases hlen : posn1.length = posn2.length
    · rw [if_pos hlen] at h
      exact correctAxes_posRowQ_ne dims b 0 _ m false out h a hne
    · rw [if_neg hlen] at h
      cases h
  · intro dims b axis d p2 m moved L hL hpos
    simp only [correctAxes, hL, exBind_ok]
    by_cases h1 : L / 2 < d
    all_goals by_cases h2 : d < -(L / 2)
    all_goals first
      | (exfalso; linarith)
      | simp [correctAxes, h1, h2]

/-- Witness for C6: on the spec's end-to-end pair with anchor particle 0
(the first index of the bond record), particle 0's row is untouched, and
the x-axis rule applied to delta `9.8 > 5` moves the neighbor to
`-4.9 + 10`. -/
theorem c6_anchor_and_axis_rule_witness :
    posRowQ pairMoved 0 = posRowQ pairM 0 ∧
    correctAxes box10 1 0 [(9.8, -4.9)] pairM false =
      .ok (if box10.lx / 2 < (9.8 : ℚ) then (updPos pairM 1 0 (-4.9 + box10.lx), true)
           else if (9.8 : ℚ) < -(box10.lx / 2) then
             (updPos pairM 1 0 (-4.9 - box10.lx), true)
           else (pairM, false)) :=
  ⟨c6_anchor_and_axis_rule.1 box10 pairM 0 1 (pairMoved, true) (by decide) (by decide),
   c6_anchor_and_axis_rule.2 box10 1 0 9.8 (-4.9) pairM false 10 (by decide) (by decide)⟩

/-- Counterexample for C6: the claim fixes the *second* particle index
of the bond record as anchor, but on the record `(polymer, 0, 1)` with
positions `(4.9,0,0)` and `(-4.9,0,0)` the relocation keeps particle 0
and moves particle 1 — the claimed anchor — to `(5.1, 0, 0)`. -/
theorem c6_second_index_moves :
    correctNeighbor box10 pairM (.int 0) 1 = .ok (pairMoved, true) ∧
    pairM.getText "position" =
      .ok [[.num 4.9, .num 0, .num 0], [.num (-4.9), .num 0, .num 0]] ∧
    pairMoved.getText "position" =
      .ok [[.num 4.9, .num 0, .num 0], [.num 5.1, .num 0, .num 0]] := by
  decide

/-! ### Claim C2: the discarded image term of the boundary-bond scan -/

/-- C2: at the failing input `imgM` — wrapped positions `(4.9,0,0)` and
`(-4.9,0,0)` with image offsets `(0,0,0)` and `(1,0,0)` in the box of
edge 10 — the source scan flags the bond (it sees the raw delta `9.8`),
while the spec's reconstructed-true-position criterion does not (the
true delta is `0.2`): the `+ image * box` term of lines 241-242 and
245-246 is an orphaned expression statement whose value is never added
to the positions. -/
theorem c2_scan_ignores_images :
    bondOutOfRange imgM box10 pairBond = .ok true ∧
    bondOutOfRangeSpec imgM box10 pairBond = .ok false := by
  decide

theorem mapM_loop_pyFloat3 (a b c : ℚ) :
    List.mapM.loop pyFloat [Tok.num a, Tok.num b, Tok.num c] [] =
      Except.ok [a, b, c] := rfl

theorem ring_cn_01 (k : ℤ) :
    correctNeighbor box10 (ringM k) (.int 0) 1 = .ok (ringM k, false) := by
  simp [correctNeighbor, posRowOfKey, posRowQ, Morph.getText,
    Morph.getSection, List.lookup, listAt, ringM, box10]
  rw [mapM_loop_pyFloat3, mapM_loop_pyFloat3]
  simp only [exBind_ok, List.length_cons, List.length_nil, reduceIte,
    List.zipWith_cons_cons, List.zipWith_nil, List.zip_cons_cons, List.zip_nil_right]
  ring_nf
  norm_num [correctAxes, Box.getAxis]

theorem ring_cn_03 (k : ℤ) :
    correctNeighbor box10 (ringM k) (.int 0) 3 = .ok (ringMa k, true) := by
  simp [correctNeighbor, posRowOfKey, posRowQ, Morph.getText,
    Morph.getSection, List.lookup, listAt, ringM, ringMa, box10]
  rw [mapM_loop_pyFloat3, mapM_loop_pyFloat3]
  simp only [exBind_ok, List.length_cons, List.length_nil, reduceIte,
    List.zipWith_cons_cons, List.zipWith_nil, List.zip_cons_cons, List.zip_nil_right]
  ring_nf
  norm_num [correctAxes, Box.getAxis, updPos, Morph.getText, Morph.getSection,
    List.lookup, odSet, ringM]
  ring_nf
  simp [List.set]

theorem ring_cn_32 (k : ℤ) :
    correctNeighbor box10 (ringMa k) (.int 3) 2 = .ok (ringMb k, true) := by
  simp [correctNeighbor, posRowOfKey, posRowQ, Morph.getText,
    Morph.getSection, List.lookup, listAt, ringM, ringMa, ringMb, box10]
  rw [mapM_loop_pyFloat3, mapM_loop_pyFloat3]
  simp only [exBind_ok, List.length_cons, List.length_nil, reduceIte,
    List.zipWith_cons_cons, List.zipWith_nil, List.zip_cons_cons, List.zip_nil_right]
  ring_nf
  norm_num [correctAxes, Box.getAxis, updPos, Morph.getText, Morph.getSection,
    List.lookup, odSet, ringM, ringMa]
  ring_nf
  simp [List.set]

theorem ring_cn_21 (k : ℤ) :
    correctNeighbor box10 (ringMb k) (.int 2) 1 = .ok (ringMc k, true) := by
  simp [correctNeighbor, posRowOfKey, posRowQ, Morph.getText,
    Morph.getSection, List.lookup, listAt, ringM, ringMb, ringMc, box10]
  rw [mapM_loop_pyFloat3, mapM_loop_pyFloat3]
  simp only [exBind_ok, List.length_cons, List.length_nil, reduceIte,
    List.zipWith_cons_cons, List.zipWith_nil, List.zip_cons_cons, List.zip_nil_right]
  ring_nf
  norm_num [correctAxes, Box.getAxis, updPos, Morph.getText, Morph.getSection,
    List.lookup, odSet, ringM, ringMb]
  ring_nf

theorem ring_cn_10 (k : ℤ) :
    correctNeighbor box10 (ringMc k) (.int 1) 0 = .ok (ringM (k + 1), true) := by
  simp [correctNeighbor, posRowOfKey, posRowQ, Morph.getText,
    Morph.getSection, List.lookup, listAt, ringM, ringMc, box10]
  rw [mapM_loop_pyFloat3, mapM_loop_pyFloat3]
  simp only [exBind_ok, List.length_cons, List.length_nil, reduceIte,
    List.zipWith_cons_cons, List.zipWith_nil, List.zip_cons_cons, List.zip_nil_right]
  ring_nf
  norm_num [correctAxes, Box.getAxis, updPos, Morph.getText, Morph.getSection,
    List.lookup, odSet, ringM, ringMc]
  ring_nf

theorem dictGet_ring0 : dictGet ringBd (.int 0) = .ok [1, 3] := rfl

theorem dictGet_ring3 : dictGet ringBd (.int 3) = .ok [2, 0] := rfl

theorem dictGet_ring2 : dictGet ringBd (.int 2) = .ok [1, 3] := rfl

theorem dictGet_ring1 : dictGet ringBd (.int 1) = .ok [0, 2] := rfl

theorem ringDivergeAux : ∀ f : ℕ, ∀ k : ℤ,
    move_bonded_atoms f ringBd box10 (.int 0) (ringM k) = .error .fuel ∧
    move_bonded_atoms f ringBd box10 (.int 3) (ringMa k) = .error .fuel ∧
    move_bonded_atoms f ringBd box10 (.int 2) (ringMb k) = .error .fuel ∧
    move_bonded_atoms f ringBd box10 (.int 1) (ringMc k) = .error .fuel := by
  intro f
  induction f with
  | zero => intro k; exact ⟨rfl, rfl, rfl, rfl⟩
  | succ f ih =>
    intro k
    refine ⟨?_, ?_, ?_, ?_⟩
    · rw [move_bonded_atoms_succ, dictGet_ring0]
      simp only [List.foldlM_cons, List.foldlM_nil, moveStep,
        ring_cn_01, ring_cn_03, exBind_ok, exBind_error, exPure,
        Bool.false_eq_true, reduceIte]
      rw [(ih k).2.1]
      rfl
    · rw [move_bonded_atoms_succ, dictGet_ring3]
      simp only [List.foldlM_cons, List.foldlM_nil, moveStep,
        ring_cn_32, exBind_ok, exBind_error, exPure, reduceIte]
      rw [(ih k).2.2.1]
      rfl
    · rw [move_bonded_atoms_succ, dictGet_ring2]
      simp only [List.foldlM_cons, List.foldlM_nil, moveStep,
        ring_cn_21, exBind_ok, exBind_error, exPure, reduceIte]
      rw [(ih k).2.2.2]
      rfl
    · rw [move_bonded_atoms_succ, dictGet_ring1]
      simp only [List.foldlM_cons, List.foldlM_nil, moveStep,
        ring_cn_10, exBind_ok, exBind_error, exPure, reduceIte]
      rw [(ih (k + 1)).1]
      rfl

/-- C4: refuted as stated — the Cluster Relocator does NOT terminate on
every input.  `move_bonded_atoms` keeps no visited set and the code has
no `NonConvergentRelocationError`; on the bonded 4-ring `0-1-2-3-0`
(`ringM`, `ringBd`, box edge 10) the call on particle 0 relocates
3, then 2, then 1, then 0 again, returning to the same configuration
shifted one whole box over (`ringM (k+1)`), so the recursion revisits
particle 0 forever: every finite recursion budget `f` is exhausted,
from every shifted copy `ringM k` of the ring. -/
theorem c4_relocator_diverges_on_ring (f : ℕ) (k : ℤ) :
    move_bonded_atoms f ringBd box10 (.int 0) (ringM k) = .error .fuel :=
  (ringDivergeAux f k).1

theorem find_map_buildSection (m : Morph) (l : List String) (tag : String)
    (s : XSection)
    (h : (l.map (buildSection m)).find? (fun x => x.tag == tag) = some s) :
    s = buildSection m tag := by
  induction l with
  | nil => simp at h
  | cons t rest ih =>
    simp only [List.map_cons, List.find?_cons] at h
    by_cases ht : (buildSection m t).tag = tag
    · have : t = tag := by simpa [buildSection] using ht
      subst this
      simp [buildSection, ht] at h
      exact h.symm
    · have hb : ((buildSection m t).tag == tag) = false := by simpa using ht
      rw [hb] at h
      exact ih h

theorem treeSection_buildTree_eq (m : Morph) (tag : String) (s : XSection)
    (h : treeSection (buildTree m) tag = .ok s) :
    s = buildSection m tag := by
  simp only [treeSection, buildTree, exBind_ok] at h
  cases hf : List.find? (fun x => x.tag == tag)
      ((writeChildTags []
        (((m.children.map Prod.fst).map (fun t => [t, t])).flatten)).map
        (buildSection m)) with
  | none => rw [hf] at h; cases h
  | some s2 =>
    rw [hf] at h
    injection h with h2
    subst h2
    exact find_map_buildSection m _ tag s2 hf

theorem treePosVecs_buildTree (m : Morph) (vs : List (Vec3 ℚ))
    (h : treePosVecs (buildTree m) = .ok vs) :
    vs = [] ∨ posVecs m = .ok vs := by
  unfold treePosVecs at h
  cases hs : treeSection (buildTree m) "position" with
  | error e => rw [hs] at h; cases h
  | ok s =>
    rw [hs] at h
    simp only [exBind_ok] at h
    have hsec := treeSection_buildTree_eq m "position" s hs
    subst hsec
    cases hl : m.children.lookup "position" with
    | none =>
      simp only [buildSection, hl, Option.getD_none, reduceIte,
        List.mapM_nil, exPure] at h
      injection h with h2
      exact Or.inl h2.symm
    | some sec =>
      simp only [buildSection, hl, Option.getD_some] at h
      by_cases he : sec.text = [] ∨ sec.text = [[]]
      · rw [if_pos he] at h
        simp only [List.mapM_nil, exPure] at h
        injection h with h2
        exact Or.inl h2.symm
      · rw [if_neg he] at h
        refine Or.inr ?_
        unfold posVecs Morph.getText Morph.getSection
        rw [hl]
        simpa using h

theorem treeBoxDims_buildTree (m : Morph) (dims : Box)
    (h : treeBoxDims (buildTree m) = .ok dims) :
    boxDims m = .ok dims := by
  unfold treeBoxDims at h
  cases hs : treeSection (buildTree m) "box" with
  | error e => rw [hs] at h; cases h
  | ok s =>
    rw [hs] at h
    simp only [exBind_ok] at h
    have hsec := treeSection_buildTree_eq m "box" s hs
    subst hsec
    cases hl : m.children.lookup "box" with
    | none =>
      simp only [buildSection, hl, Option.getD_none, attrGet,
        List.lookup_nil, exBind_error] at h
      cases h
    | some sec =>
      simp only [buildSection, hl, Option.getD_some] at h
      unfold boxDims Morph.getAttrib Morph.getSection
      rw [hl]
      simpa using h

theorem fix_images_elim {f : ℕ} {d t : XDoc} (h : fix_images f d = .ok t) :
    ∃ m2 m3, check_wrapped_positions m2 = .ok m3 ∧ t = buildTree m3 := by
  unfold fix_images at h
  cases h1 : load_morphology_xml d with
  | error e => rw [h1] at h; cases h
  | ok m =>
  rw [h1] at h
  simp only [exBind_ok] at h
  cases h2 : zero_out_images m with
  | error e => rw [h2] at h; cases h
  | ok m1 =>
  rw [h2] at h
  simp only [exBind_ok] at h
  cases h3 : get_bond_dict m1 with
  | error e => rw [h3] at h; cases h
  | ok bd =>
  rw [h3] at h
  simp only [exBind_ok] at h
  cases h4 : boxDims m1 with
  | error e => rw [h4] at h; cases h
  | ok dims =>
  rw [h4] at h
  simp only [exBind_ok] at h
  cases h5 : check_bonds f bd dims m1 with
  | error e => rw [h5] at h; cases h
  | ok m2 =>
  rw [h5] at h
  simp only [exBind_ok] at h
  unfold write_morphology_xml at h
  cases h6 : check_wrapped_positions m2 with
  | error e => rw [h6] at h; cases h
  | ok m3 =>
  rw [h6] at h
  simp only [exBind_ok, exPure] at h
  injection h with h7
  exact ⟨m2, m3, h6, h7.symm⟩

/-- The serialized output of the full pipeline on `okDoc`: the scan left
the out-of-cell particle at `(7,0,0)` untouched and the serializer then
wrapped it to `(-3,0,0)` with image flag 1. -/
def okTree : XDoc :=
  { tag := "hoomd_xml"
    attrib := [("version", .num 1.6)]
    text := some "nl"
    configs := [{ tag := "configuration"
                  attrib := [("time_step", .num 0)]
                  text := some "nl"
                  sections :=
                    [⟨"box", [("lx", .num 10), ("ly", .num 10), ("lz", .num 10)], none⟩,
                     ⟨"position", [("num", .num 2)],
                       some [[.num (-3), .num 0, .num 0], [.num 4, .num 0, .num 0]]⟩,
                     ⟨"image", [("num", .num 2)],
                       some [[.num 1, .num 0, .num 0], [.num 0, .num 0, .num 0]]⟩,
                     ⟨"type", [("num", .num 2)], some [[.raw "A"], [.raw "A"]]⟩,
                     ⟨"bond", [], some [[.raw "backbone", .num 0, .num 1]]⟩] }] }

/-- C1: corrected.  In the code the image wrap runs AFTER the
boundary-bond scan, not before it: `fix_images` runs `check_bonds` on
the un-wrapped positions and only `write_morphology_xml` wraps (line
369), and positions are therefore re-wrapped after relocation — whenever
the pipeline succeeds on a positive box, EVERY position in the
serialized output lies in `[-L/2, L/2]`, so no particle the relocator
shifted can remain outside that interval in the output. -/
theorem c1_wrap_after_scan_output_in_range (f : ℕ) (d t : XDoc)
    (dims : Box) (vs : List (Vec3 ℚ))
    (h : fix_images f d = .ok t)
    (hbox : treeBoxDims t = .ok dims)
    (hx : 0 < dims.lx) (hy : 0 < dims.ly) (hz : 0 < dims.lz)
    (hvs : treePosVecs t = .ok vs) :
    ∀ v ∈ vs,
      -(dims.lx / 2) ≤ v.x ∧ v.x ≤ dims.lx / 2 ∧
      -(dims.ly / 2) ≤ v.y ∧ v.y ≤ dims.ly / 2 ∧
      -(dims.lz / 2) ≤ v.z ∧ v.z ≤ dims.lz / 2 := by
  obtain ⟨m2, m3, hcwp, ht⟩ := fix_images_elim h
  subst ht
  rcases treePosVecs_buildTree _ _ hvs with hnil | hpos
  · subst hnil
    intro v hv
    cases hv
  · have hbox3 : boxDims m3 = .ok dims := treeBoxDims_buildTree _ _ hbox
    obtain ⟨d0, ps, is, pr, hb3, hb2, hp3, hi3, hp2, hi2, hw⟩ :=
      cwp_ok_out_posVecs hcwp
    rw [hbox3] at hb3
    injection hb3 with hd0
    subst hd0
    rw [hpos] at hp3
    injection hp3 with hvs3
    intro v hv
    rw [hvs3] at hv
    obtain ⟨p, i, hpi⟩ := wrapPairs_mem dims ps is pr hw v hv
    rw [← hpi]
    have hbnd := wrap3_bound dims p i hx hy hz
    exact ⟨hbnd.1, hbnd.2.1, hbnd.2.2.1, hbnd.2.2.2.1, hbnd.2.2.2.2.1,
      hbnd.2.2.2.2.2⟩

/-- C1, counterexample to the claimed order: `flaggedDoc` holds one bond
that is strained only because its endpoints have not yet been wrapped.
The real pipeline scans first, flags the bond and dies with the
relocator's `KeyError`, while under the spec's order (wrap before scan,
`fixImagesSpecOrder`) the wrap de-strains the bond and the pipeline
succeeds. -/
theorem c1_order_counterexample :
    fix_images 5 flaggedDoc = .error .key ∧
    (fixImagesSpecOrder 5 flaggedDoc).isOk = true := by decide

/-- Witness for `c1_wrap_after_scan_output_in_range` at the concrete run
`fix_images 5 okDoc = .ok okTree`. -/
theorem c1_wrap_after_scan_output_in_range_witness :
    fix_images 5 okDoc = .ok okTree ∧
    ∀ v ∈ ([⟨-3, 0, 0⟩, ⟨4, 0, 0⟩] : List (Vec3 ℚ)),
      -(box10.lx / 2) ≤ v.x ∧ v.x ≤ box10.lx / 2 ∧
      -(box10.ly / 2) ≤ v.y ∧ v.y ≤ box10.ly / 2 ∧
      -(box10.lz / 2) ≤ v.z ∧ v.z ≤ box10.lz / 2 :=
  ⟨by decide,
   c1_wrap_after_scan_output_in_range 5 okDoc okTree box10
     [⟨-3, 0, 0⟩, ⟨4, 0, 0⟩]
     (by decide) (by decide) (by decide) (by decide) (by decide) (by decide)⟩

theorem renderQ3_parseQ3 (row : List Tok) (v : Vec3 ℚ)
    (h : parseQ3 row = .ok v) : renderQ3 v = row := by
  match row with
  | [a, b, c] =>
    cases a with
    | raw s => simp [parseQ3, pyFloat] at h
    | num qa =>
      cases b with
      | raw s => simp [parseQ3, pyFloat] at h
      | num qb =>
        cases c with
        | raw s => simp [parseQ3, pyFloat] at h
        | num qc =>
          simp only [parseQ3, pyFloat, exBind_ok, exPure] at h
          injection h with h2
          rw [← h2]
          rfl
  | [] => simp [parseQ3] at h
  | [a] => simp [parseQ3] at h
  | [a, b] => simp [parseQ3] at h
  | a :: b :: c :: e :: rest => simp [parseQ3] at h

theorem intCast_eq_self_of_den_one (q : ℚ) (h : q.den = 1) :
    ((q.num : ℚ)) = q := by
  conv_rhs => rw [← Rat.num_div_den q]
  rw [h]
  norm_num

theorem renderZ3_parseZ3 (row : List Tok) (v : Vec3 ℤ)
    (h : parseZ3 row = .ok v) : renderZ3 v = row := by
  match row with
  | [a, b, c] =>
    cases a with
    | raw s => simp [parseZ3, pyInt] at h
    | num qa =>
      cases b with
      | raw s =>
        simp only [parseZ3, pyInt] at h
        by_cases ha : qa.den = 1 <;> simp [ha] at h
      | num qb =>
        cases c with
        | raw s =>
          simp only [parseZ3, pyInt] at h
          by_cases ha : qa.den = 1 <;> by_cases hb : qb.den = 1 <;>
            simp [ha, hb] at h
        | num qc =>
          simp only [parseZ3, pyInt] at h
          by_cases ha : qa.den = 1 <;> by_cases hb : qb.den = 1 <;>
            by_cases hc : qc.den = 1 <;> simp [ha, hb, hc] at h
          rw [← h]
          simp only [renderZ3]
          rw [intCast_eq_self_of_den_one qa ha, intCast_eq_self_of_den_one qb hb,
            intCast_eq_self_of_den_one qc hc]
  | [] => simp [parseZ3] at h
  | [a] => simp [parseZ3] at h
  | [a, b] => simp [parseZ3] at h
  | a :: b :: c :: e :: rest => simp [parseZ3] at h

theorem map_renderQ3_of_mapM (rows : List (List Tok)) (ps : List (Vec3 ℚ))
    (h : rows.mapM parseQ3 = .ok ps) : ps.map renderQ3 = rows := by
  induction rows generalizing ps with
  | nil =>
    simp only [List.mapM_nil, exPure] at h
    injection h with h2
    rw [← h2]
    rfl
  | cons r rest ih =>
    rw [List.mapM_cons] at h
    cases hr : parseQ3 r with
    | error e => rw [hr] at h; cases h
    | ok v =>
      rw [hr] at h
      simp only [exBind_ok] at h
      cases hrest : rest.mapM parseQ3 with
      | error e => rw [hrest] at h; cases h
      | ok vs =>
        rw [hrest] at h
        simp only [exBind_ok, exPure] at h
        injection h with h2
        rw [← h2, List.map_cons, renderQ3_parseQ3 r v hr, ih vs hrest]

theorem map_renderZ3_of_mapM (rows : List (List Tok)) (is : List (Vec3 ℤ))
    (h : rows.mapM parseZ3 = .ok is) : is.map renderZ3 = rows := by
  induction rows generalizing is with
  | nil =>
    simp only [List.mapM_nil, exPure] at h
    injection h with h2
    rw [← h2]
    rfl
  | cons r rest ih =>
    rw [List.mapM_cons] at h
    cases hr : parseZ3 r with
    | error e => rw [hr] at h; cases h
    | ok v =>
      rw [hr] at h
      simp only [exBind_ok] at h
      cases hrest : rest.mapM parseZ3 with
      | error e => rw [hrest] at h; cases h
      | ok vs =>
        rw [hrest] at h
        simp only [exBind_ok, exPure] at h
        injection h with h2
        rw [← h2, List.map_cons, renderZ3_parseZ3 r v hr, ih vs hrest]

theorem wrap3_id (dims : Box) (p : Vec3 ℚ) (i : Vec3 ℤ)
    (hx1 : -(dims.lx / 2) ≤ p.x) (hx2 : p.x ≤ dims.lx / 2)
    (hy1 : -(dims.ly / 2) ≤ p.y) (hy2 : p.y ≤ dims.ly / 2)
    (hz1 : -(dims.lz / 2) ≤ p.z) (hz2 : p.z ≤ dims.lz / 2) :
    wrap3 dims p i = (p, i) := by
  unfold wrap3
  rw [wrapAxis_id dims.lx p.x i.x hx1 hx2, wrapAxis_id dims.ly p.y i.y hy1 hy2,
    wrapAxis_id dims.lz p.z i.z hz1 hz2]

theorem wrapPairs_id (dims : Box) (ps : List (Vec3 ℚ)) (is : List (Vec3 ℤ))
    (hlen : ps.length ≤ is.length)
    (hin : ∀ p ∈ ps,
      -(dims.lx / 2) ≤ p.x ∧ p.x ≤ dims.lx / 2 ∧
      -(dims.ly / 2) ≤ p.y ∧ p.y ≤ dims.ly / 2 ∧
      -(dims.lz / 2) ≤ p.z ∧ p.z ≤ dims.lz / 2) :
    wrapPairs dims ps is = .ok (ps, is) := by
  induction ps generalizing is with
  | nil => rfl
  | cons p ps ih =>
    cases is with
    | nil => simp at hlen
    | cons i is =>
      have hp := hin p (List.mem_cons_self p ps)
      have hrest := ih is (by simpa using Nat.le_of_succ_le_succ hlen)
        (fun q hq => hin q (List.mem_cons_of_mem p hq))
      simp only [wrapPairs]
      rw [wrap3_id dims p i hp.1 hp.2.1 hp.2.2.1 hp.2.2.2.1 hp.2.2.2.2.1
        hp.2.2.2.2.2, hrest]
      rfl

theorem getText_ok_elim (m : Morph) (tag : String) (rows : List (List Tok))
    (h : m.getText tag = .ok rows) :
    ∃ s, m.children.lookup tag = some s ∧ s.text = rows := by
  unfold Morph.getText Morph.getSection at h
  cases hl : m.children.lookup tag with
  | none => rw [hl] at h; cases h
  | some s =>
    rw [hl] at h
    simp only [exMap_ok] at h
    injection h with h2
    exact ⟨s, rfl, h2⟩

theorem wfMorph_particles (m : Morph) (hwf : wfMorph m = true) :
    ∃ dims ps is, boxDims m = .ok dims ∧ posVecs m = .ok ps ∧
      imgVecs m = .ok is ∧ ps.length ≤ is.length ∧
      ∀ p ∈ ps,
        -(dims.lx / 2) ≤ p.x ∧ p.x ≤ dims.lx / 2 ∧
        -(dims.ly / 2) ≤ p.y ∧ p.y ≤ dims.ly / 2 ∧
        -(dims.lz / 2) ≤ p.z ∧ p.z ≤ dims.lz / 2 := by
  unfold wfMorph at hwf
  simp only [Bool.and_eq_true] at hwf
  have hF := hwf.2
  cases hbox : boxDims m with
  | error e => rw [hbox] at hF; exact absurd hF (by simp)
  | ok dims =>
  cases hps : posVecs m with
  | error e => rw [hbox, hps] at hF; exact absurd hF (by simp)
  | ok ps =>
  cases his : imgVecs m with
  | error e => rw [hbox, hps, his] at hF; exact absurd hF (by simp)
  | ok is =>
  rw [hbox, hps, his] at hF
  simp only [Bool.and_eq_true, List.all_eq_true, decide_eq_true_eq] at hF
  refine ⟨dims, ps, is, rfl, rfl, rfl, hF.1, ?_⟩
  intro p hp
  have := hF.2 p hp
  exact ⟨this.1.1.1, this.1.1.2, this.1.2.1, this.1.2.2, this.2.1, this.2.2⟩

theorem cwp_id (m : Morph) (hwf : wfMorph m = true) :
    check_wrapped_positions m = .ok m := by
  obtain ⟨dims, ps, is, hbox, hps, his, hlen, hin⟩ := wfMorph_particles m hwf
  unfold posVecs at hps
  cases hpt : m.getText "position" with
  | error e => rw [hpt] at hps; cases hps
  | ok posRows =>
  rw [hpt] at hps
  simp only [exBind_ok] at hps
  unfold imgVecs at his
  cases hit : m.getText "image" with
  | error e => rw [hit] at his; cases his
  | ok imgRows =>
  rw [hit] at his
  simp only [exBind_ok] at his
  unfold check_wrapped_positions
  rw [hbox]
  simp only [exBind_ok]
  rw [hpt]
  simp only [exBind_ok]
  rw [hit]
  simp only [exBind_ok]
  rw [hps]
  simp only [exBind_ok]
  rw [his]
  simp only [exBind_ok]
  rw [wrapPairs_id dims ps is hlen hin]
  simp only [exBind_ok, exPure]
  rw [map_renderQ3_of_mapM posRows ps hps, map_renderZ3_of_mapM imgRows is his]
  obtain ⟨sp, hlp, htp⟩ := getText_ok_elim m "position" posRows hpt
  obtain ⟨si, hli, hti⟩ := getText_ok_elim m "image" imgRows hit
  rw [← htp, setText_text_eq m "position" sp hlp]
  rw [← hti, setText_text_eq m "image" si hli]

theorem writeChildTags_dup (l : List String) (seen : List String)
    (hnd : l.Nodup)
    (hgood : ∀ t ∈ l, t ≠ "root" ∧ t ≠ "config" ∧ t ≠ "")
    (hseen : ∀ t ∈ l, t ∉ seen) :
    writeChildTags seen ((l.map (fun t => [t, t])).flatten) = l := by
  induction l generalizing seen with
  | nil => rfl
  | cons t rest ih =>
    have hg := hgood t (List.mem_cons_self t rest)
    have hs := hseen t (List.mem_cons_self t rest)
    have hnd' := (List.nodup_cons.mp hnd).2
    have htr := (List.nodup_cons.mp hnd).1
    simp only [List.map_cons, List.flatten_cons, List.cons_append,
      List.nil_append]
    rw [writeChildTags]
    rw [if_neg (by
      have hc : seen.contains t = false := by simp [hs]
      simp [hg.1, hg.2.1, hg.2.2, hc]
      exact hs)]
    rw [writeChildTags]
    rw [if_pos (Or.inr (Or.inr (Or.inr (by simp))))]
    rw [ih (t :: seen) hnd'
      (fun u hu => hgood u (List.mem_cons_of_mem t hu))
      (fun u hu => by
        simp only [List.mem_cons]
        push_neg
        exact ⟨fun e => htr (e ▸ hu), hseen u (List.mem_cons_of_mem t hu)⟩)]

theorem lookup_self_of_nodup {α : Type} (xs : List (String × α))
    (hnd : (xs.map Prod.fst).Nodup) (p : String × α) (hp : p ∈ xs) :
    xs.lookup p.1 = some p.2 := by
  induction xs with
  | nil => cases hp
  | cons q rest ih =>
    rcases List.mem_cons.mp hp with hp | hp
    · subst hp
      simp [List.lookup]
    · have hnd2 : (q.1 :: rest.map Prod.fst).Nodup := by simpa using hnd
      have hq : q.1 ∉ rest.map Prod.fst := (List.nodup_cons.mp hnd2).1
      have hne : p.1 ≠ q.1 := by
        intro e
        exact hq (e ▸ List.mem_map_of_mem Prod.fst hp)
      have hbe : (p.1 == q.1) = false := by
        simp [hne]
      simp only [List.lookup, hbe]
      exact ih (List.nodup_cons.mp hnd2).2 hp

theorem foldl_odSet_append (l acc : List (String × Tok))
    (hnd : (l.map Prod.fst).Nodup)
    (hdisj : ∀ k ∈ l.map Prod.fst, k ∉ acc.map Prod.fst)
    (hlow : ∀ kv ∈ l, pyLower kv.1 = kv.1) :
    l.foldl (fun acc kv => odSet acc (pyLower kv.1) kv.2) acc = acc ++ l := by
  induction l generalizing acc with
  | nil => simp
  | cons kv rest ih =>
    have hnd2 : (kv.1 :: rest.map Prod.fst).Nodup := by simpa using hnd
    simp only [List.foldl_cons]
    rw [hlow kv (List.mem_cons_self kv rest)]
    rw [odSet_append_of_not_mem acc kv.1 kv.2
      (hdisj kv.1 (by exact List.mem_map_of_mem Prod.fst (List.mem_cons_self kv rest)))]
    rw [ih (acc ++ [(kv.1, kv.2)])
      (List.nodup_cons.mp hnd2).2
      (fun k hk => by
        have hk0 : k ∈ (kv :: rest).map Prod.fst := by
          rw [List.map_cons]
          exact List.mem_cons_of_mem kv.1 hk
        simp only [List.map_append, List.mem_append, List.map_cons,
          List.map_nil, List.mem_singleton]
        push_neg
        refine ⟨hdisj k hk0, ?_⟩
        intro e
        exact (List.nodup_cons.mp hnd2).1 (e ▸ hk))
      (fun q hq => hlow q (List.mem_cons_of_mem kv hq))]
    simp

theorem lowerKeys_id (attrib : List (String × Tok))
    (hnd : (attrib.map Prod.fst).Nodup)
    (hlow : ∀ kv ∈ attrib, pyLower kv.1 = kv.1) :
    lowerKeys attrib = attrib := by
  unfold lowerKeys
  rw [foldl_odSet_append attrib [] hnd (by simp) hlow]
  simp

theorem foldl_loadSection_gen (m : Morph) (l : List (String × Section)) :
    ∀ acc : List (String × Section),
    (∀ p ∈ l, m.children.lookup p.1 = some p.2) →
    (l.map Prod.fst).Nodup →
    (∀ p ∈ l, p.1 ∉ acc.map Prod.fst) →
    (∀ p ∈ l, lowerKeys p.2.attrib = p.2.attrib) →
    (∀ p ∈ l, ∀ row ∈ p.2.text, row ≠ []) →
    List.foldl loadSection acc ((l.map Prod.fst).map (buildSection m)) =
      acc ++ l := by
  induction l with
  | nil => intro acc _ _ _ _ _; simp
  | cons p rest ih =>
    intro acc hsub hnd hdisj hattr htext
    have hmem := List.mem_cons_self p rest
    have hnd2 : (p.1 :: rest.map Prod.fst).Nodup := by simpa using hnd
    simp only [List.map_cons, List.foldl_cons]
    have hbs : buildSection m p.1 =
        ⟨p.1, p.2.attrib,
         if p.2.text = [] ∨ p.2.text = [[]] then none else some p.2.text⟩ := by
      unfold buildSection
      rw [hsub p hmem]
      rfl
    have hls : loadSection acc (buildSection m p.1) = odSet acc p.1 p.2 := by
      rw [hbs]
      unfold loadSection
      by_cases hnil : p.2.text = []
      · rw [if_pos (Or.inl hnil)]
        simp only
        rw [hattr p hmem, ← hnil]
      · have hne2 : p.2.text ≠ [[]] := by
          intro e
          exact htext p hmem [] (by rw [e]; exact List.mem_singleton_self []) rfl
        rw [if_neg (by rintro (h | h); exact hnil h; exact hne2 h)]
        simp only
        rw [hattr p hmem]
        rw [List.filter_eq_self.mpr (fun row hrow => by
          simpa using htext p hmem row hrow)]
    rw [hls, odSet_append_of_not_mem acc p.1 p.2 (hdisj p hmem)]
    rw [ih (acc ++ [(p.1, p.2)])
      (fun q hq => hsub q (List.mem_cons_of_mem p hq))
      (List.nodup_cons.mp hnd2).2
      (fun q hq => by
        have hq0 := hdisj q (List.mem_cons_of_mem p hq)
        simp only [List.map_append, List.mem_append, List.map_cons,
          List.map_nil, List.mem_singleton]
        push_neg
        refine ⟨hq0, ?_⟩
        intro e
        exact (List.nodup_cons.mp hnd2).1
          (e ▸ List.mem_map_of_mem Prod.fst hq))
      (fun q hq => hattr q (List.mem_cons_of_mem p hq))
      (fun q hq => htext q (List.mem_cons_of_mem p hq))]
    simp

theorem load_buildTree (m : Morph) (hwf : wfMorph m = true) :
    load_morphology_xml (buildTree m) = .ok m := by
  have hwf' := hwf
  unfold wfMorph at hwf'
  simp only [Bool.and_eq_true] at hwf'
  obtain ⟨⟨⟨⟨⟨hA, hB⟩, hC⟩, hD⟩, hE⟩, _⟩ := hwf'
  have hndk : (m.children.map Prod.fst).Nodup := by simpa using hA
  have hgood : ∀ t ∈ m.children.map Prod.fst,
      t ≠ "root" ∧ t ≠ "config" ∧ t ≠ "" := by
    intro t ht
    obtain ⟨p, hp, he⟩ := List.mem_map.mp ht
    have hb := List.all_eq_true.mp hB p hp
    simp only [Bool.and_eq_true, bne_iff_ne, ne_eq] at hb
    rw [← he]
    exact ⟨hb.1.1, hb.1.2, hb.2⟩
  have hsub : ∀ p ∈ m.children, m.children.lookup p.1 = some p.2 :=
    fun p hp => lookup_self_of_nodup m.children hndk p hp
  have hattr : ∀ p ∈ m.children, lowerKeys p.2.attrib = p.2.attrib := by
    intro p hp
    have hc := List.all_eq_true.mp hC p hp
    have hd := List.all_eq_true.mp hD p hp
    refine lowerKeys_id p.2.attrib (by simpa using hc) ?_
    intro kv hkv
    have := List.all_eq_true.mp hd kv hkv
    simpa using this
  have htext : ∀ p ∈ m.children, ∀ row ∈ p.2.text, row ≠ [] := by
    intro p hp row hrow
    have he := List.all_eq_true.mp hE p hp
    have := List.all_eq_true.mp he row hrow
    simp only [Bool.not_eq_true'] at this
    intro hnil
    rw [hnil] at this
    simp at this
  unfold load_morphology_xml buildTree
  simp only [List.getLast_singleton, List.map_cons, List.map_nil,
    List.flatten_cons, List.flatten_nil, List.append_nil]
  rw [writeChildTags_dup (m.children.map Prod.fst) [] hndk hgood (by simp)]
  rw [foldl_loadSection_gen m m.children [] hsub hndk (by simp) hattr htext]
  simp

/-- C9: corrected.  The serializer cannot run "with no mutation in
between": `write_morphology_xml` re-wraps every position (line 369), so
parse → serialize → re-parse reproduces the original parse exactly when
the document's positions are already wrapped.  For every well-formed
document (`wfDoc`: distinct ordinary section tags, lower-case distinct
attribute keys, no empty rows, a parsing box/position/image block with
positions inside `[-L/2, L/2]`) the round trip is lossless and preserves
the section order, attributes and rows: re-parsing the serialized output
yields the original in-memory morphology, section set, order, attribute
maps and token rows included. -/
theorem c9_round_trip_wrapped (d : XDoc) (h : wfDoc d = true) :
    ∃ m t, load_morphology_xml d = .ok m ∧ write_morphology_xml m = .ok t ∧
      load_morphology_xml t = .ok m := by
  unfold wfDoc at h
  cases hl : load_morphology_xml d with
  | error e => rw [hl] at h; cases h
  | ok m =>
    rw [hl] at h
    refine ⟨m, buildTree m, rfl, ?_, load_buildTree m h⟩
    unfold write_morphology_xml
    rw [cwp_id m h]
    rfl

/-- C9, counterexample to the unconditional claim: on `flaggedDoc` (a
particle at `(7,0,0)`, outside the primary cell) parse → serialize →
re-parse changes the position rows — the serializer's wrap rewrites
`7` to `-3` — so the re-parse does not reproduce the original row token
sequences. -/
theorem c9_round_trip_counterexample :
    roundTripPositions flaggedDoc =
      .ok ([[.num 7, .num 0, .num 0], [.num 0, .num 0, .num 0]],
           [[.num (-3), .num 0, .num 0], [.num 0, .num 0, .num 0]]) ∧
    ([[Tok.num 7, Tok.num 0, Tok.num 0], [Tok.num 0, Tok.num 0, Tok.num 0]] ≠
     [[Tok.num (-3), Tok.num 0, Tok.num 0], [Tok.num 0, Tok.num 0, Tok.num 0]]) := by
  decide

/-- Witness for `c9_round_trip_wrapped` at the already-wrapped document
`wrappedDoc`. -/
theorem c9_round_trip_wrapped_witness :
    ∃ m t, load_morphology_xml wrappedDoc = .ok m ∧
      write_morphology_xml m = .ok t ∧ load_morphology_xml t = .ok m :=
  c9_round_trip_wrapped wrappedDoc (by decide)
